import Mathlib

/-!
Verification of the in-memory block cache (`BlockCacheStandard` in
`libkbfs/bcache.go`) against its natural-language specification.

The Go code is shallowly embedded: the two LRU caches from
`hashicorp/golang-lru` are modelled as association lists ordered
oldest-first together with an entry-count capacity; `Get` refreshes
recency, `Add` inserts or refreshes and evicts the oldest entry when the
entry count overflows, `Remove` and `RemoveOldest` return the removed
entry so that the caller can run the eviction callback
(`onEvict` / `subtractBlockBytes`), exactly as the library invokes it
synchronously.  Machine integers (`uint64`, `uint32`) are modelled as
`Nat`: the Go code only adds sizes and performs an explicitly guarded
subtraction (`subtractBlockBytes` checks `cleanTotalBytes >= size`
before subtracting), so no wrap-around is reachable and `Nat` is exact.
The content hash `kbfshash.DoRawDefaultHash` is modelled as an injective
function (the identity on the plaintext), the usual collision-free
idealization of a cryptographic hash.
-/

/-! ## Association lists with key lookup, used to model maps and LRU contents -/

/-- Look up the first entry with the given key. -/
def lookupKey {κ V : Type} [DecidableEq κ] : List (κ × V) → κ → Option V
  | [], _ => none
  | e :: rest, k => if e.1 = k then some e.2 else lookupKey rest k

/-- Remove every entry with the given key. -/
def eraseKey {κ V : Type} [DecidableEq κ] (l : List (κ × V)) (k : κ) : List (κ × V) :=
  l.filter (fun e => decide (e.1 ≠ k))

/-- Sum a numeric measure of the values of an association list. -/
def sumVals {κ V : Type} (f : V → Nat) (l : List (κ × V)) : Nat :=
  (l.map (fun e => f e.2)).sum

/-- The keys of the list are pairwise distinct. -/
def keysNodup {κ V : Type} (l : List (κ × V)) : Prop :=
  (l.map Prod.fst).Nodup

instance {κ V : Type} [DecidableEq κ] (l : List (κ × V)) : Decidable (keysNodup l) := by
  unfold keysNodup; infer_instance

/-! ## A model of `hashicorp/golang-lru`'s `lru.Cache`

Entries are kept oldest-first: `RemoveOldest` pops the head, `Add` and a
`Get` hit move the entry to the back. -/

/-- LRU cache state: entry-count capacity and entries ordered oldest-first. -/
structure LRU (κ V : Type) where
  cap : Nat
  entries : List (κ × V)
deriving DecidableEq

/-- `lru.Cache.Get`: on a hit, refresh recency by moving the entry to the
most-recent end; return the value. -/
def LRU.get {κ V : Type} [DecidableEq κ] (c : LRU κ V) (k : κ) : Option V × LRU κ V :=
  match lookupKey c.entries k with
  | none => (none, c)
  | some v => (some v, { c with entries := eraseKey c.entries k ++ [(k, v)] })

/-- `lru.Cache.Add`: if the key is present, update the value and refresh
recency (no eviction); otherwise append, and if the entry count now
exceeds the capacity, evict the oldest entry.  The evicted entry is
returned so the caller can run the eviction callback. -/
def LRU.add {κ V : Type} [DecidableEq κ] (c : LRU κ V) (k : κ) (v : V) :
    LRU κ V × Option (κ × V) :=
  if (lookupKey c.entries k).isSome then
    ({ c with entries := eraseKey c.entries k ++ [(k, v)] }, none)
  else
    match c.entries ++ [(k, v)] with
    | [] => (c, none)
    | e :: rest =>
        if (e :: rest).length > c.cap then ({ c with entries := rest }, some e)
        else ({ c with entries := e :: rest }, none)

/-- `lru.Cache.Remove`: remove the entry with the given key; the removed
value is returned so the caller can run the eviction callback. -/
def LRU.removeKey {κ V : Type} [DecidableEq κ] (c : LRU κ V) (k : κ) :
    Option V × LRU κ V :=
  (lookupKey c.entries k, { c with entries := eraseKey c.entries k })

/-- `lru.Cache.Len`. -/
def LRU.len {κ V : Type} (c : LRU κ V) : Nat := c.entries.length

/-! ## Data model (`bcache.go` types) -/

/-- The `Block` variants the cache distinguishes: `*FileBlock` (direct
payload or indirect, both with an encoded size), `*DirBlock`,
`*CommonBlock` (rejected by `PutWithPrefetch`), and any other block type
(the `default` arm of the type switch). Plaintext bytes are `Nat`s. -/
inductive Block where
  | fileBlock (isInd : Bool) (contents : List Nat) (encodedSize : Nat)
  | dirBlock (encodedSize : Nat)
  | commonBlock (encodedSize : Nat)
  | otherBlock (encodedSize : Nat)
deriving DecidableEq

/-- `kbfshash.DoRawDefaultHash`, idealized as a collision-free digest of
the plaintext (modelled by the plaintext itself). -/
def doRawDefaultHash (contents : List Nat) : List Nat := contents

/-- `kbfsblock.ZeroRefNonce`. -/
def zeroRefNonce : Nat := 0

/-- `BlockPointer`: block ID plus reference nonce (other fields are not
read by the cache). -/
structure BlockPointer where
  id : Nat
  refNonce : Nat
deriving DecidableEq

/-- `idCacheKey`: key of the dedup index. -/
structure idCacheKey where
  tlf : Nat
  plaintextHash : List Nat
deriving DecidableEq

/-- `blockContainer`: the payload stored in the transient LRU. -/
structure blockContainer where
  block : Block
  hasPrefetched : Bool
deriving DecidableEq

/-- `BlockCacheLifetime`. -/
inductive BlockCacheLifetime where
  | noCacheEntry
  | transientEntry
  | permanentEntry
deriving DecidableEq

/-- The error values the cache can return. -/
inductive CacheError where
  | noSuchBlock (id : Nat)
  | badData (id : Nat)
  | notDirectFileBlock
  | cachePutCacheFull (id : Nat)
  | attemptedCommonBlock
  | unknownBlockType
  | unknownLifetime
deriving DecidableEq

/-- `getCachedBlockSize`: plaintext length for direct file blocks,
encoded size for everything else. -/
def getCachedBlockSize : Block → Nat
  | .fileBlock isInd contents encodedSize =>
      if isInd then encodedSize else contents.length
  | .dirBlock encodedSize => encodedSize
  | .commonBlock encodedSize => encodedSize
  | .otherBlock encodedSize => encodedSize

/-- `BlockCacheStandard`: the cache state. `ids` and `cleanTransient`
are `none` exactly when the Go fields are `nil` (constructor called with
`transientCapacity <= 0`). -/
structure BlockCacheStandard where
  cleanBytesCapacity : Nat
  ids : Option (LRU idCacheKey BlockPointer)
  cleanTransient : Option (LRU Nat blockContainer)
  cleanPermanent : List (Nat × Block)
  cleanTotalBytes : Nat
deriving DecidableEq

/-- `NewBlockCacheStandard`. -/
def NewBlockCacheStandard (transientCapacity : Int) (cleanBytesCapacity : Nat) :
    BlockCacheStandard :=
  if 0 < transientCapacity then
    { cleanBytesCapacity := cleanBytesCapacity
      ids := some { cap := transientCapacity.toNat, entries := [] }
      cleanTransient := some { cap := transientCapacity.toNat, entries := [] }
      cleanPermanent := []
      cleanTotalBytes := 0 }
  else
    { cleanBytesCapacity := cleanBytesCapacity
      ids := none
      cleanTransient := none
      cleanPermanent := []
      cleanTotalBytes := 0 }

/-- `subtractBlockBytes`: debit a block's size, saturating at zero. -/
def BlockCacheStandard.subtractBlockBytes (b : BlockCacheStandard) (block : Block) :
    BlockCacheStandard :=
  let size := getCachedBlockSize block
  if b.cleanTotalBytes ≥ size then
    { b with cleanTotalBytes := b.cleanTotalBytes - size }
  else
    { b with cleanTotalBytes := 0 }

/-- `onEvict`: the transient LRU's eviction callback. -/
def BlockCacheStandard.onEvict (b : BlockCacheStandard) (bc : blockContainer) :
    BlockCacheStandard :=
  b.subtractBlockBytes bc.block

/-- `GetCleanBytesCapacity`. -/
def BlockCacheStandard.GetCleanBytesCapacity (b : BlockCacheStandard) : Nat :=
  b.cleanBytesCapacity

/-- `SetCleanBytesCapacity`. -/
def BlockCacheStandard.SetCleanBytesCapacity (b : BlockCacheStandard) (capacity : Nat) :
    BlockCacheStandard :=
  { b with cleanBytesCapacity := capacity }

/-- The result quadruple of `GetWithPrefetch`. -/
structure GetResult where
  block : Option Block
  hasPrefetched : Bool
  lifetime : BlockCacheLifetime
  err : Option CacheError
deriving DecidableEq

/-- `GetWithPrefetch`: probe the transient LRU (refreshing recency on a
hit), then the permanent map; a miss in both is `NoSuchBlockError`.  A
permanent hit reports `hasPrefetched = true`. -/
def BlockCacheStandard.GetWithPrefetch (b : BlockCacheStandard) (ptr : BlockPointer) :
    GetResult × BlockCacheStandard :=
  match b.cleanTransient with
  | some ct =>
      match ct.get ptr.id with
      | (some bc, ct2) =>
          (⟨some bc.block, bc.hasPrefetched, .transientEntry, none⟩,
           { b with cleanTransient := some ct2 })
      | (none, _) =>
          match lookupKey b.cleanPermanent ptr.id with
          | some block => (⟨some block, true, .permanentEntry, none⟩, b)
          | none => (⟨none, false, .noCacheEntry, some (.noSuchBlock ptr.id)⟩, b)
  | none =>
      match lookupKey b.cleanPermanent ptr.id with
      | some block => (⟨some block, true, .permanentEntry, none⟩, b)
      | none => (⟨none, false, .noCacheEntry, some (.noSuchBlock ptr.id)⟩, b)

/-- `Get`. -/
def BlockCacheStandard.Get (b : BlockCacheStandard) (ptr : BlockPointer) :
    (Option Block × Option CacheError) × BlockCacheStandard :=
  let r := b.GetWithPrefetch ptr
  ((r.1.block, r.1.err), r.2)

/-- `CheckForKnownPtr`: dedup lookup for a file block given by its
`IsInd` flag and plaintext contents.  Indirect blocks are an error; with
no index, or on a miss, the zero pointer is returned. -/
def BlockCacheStandard.CheckForKnownPtr (b : BlockCacheStandard) (tlf : Nat)
    (isInd : Bool) (contents : List Nat) :
    (BlockPointer × Option CacheError) × BlockCacheStandard :=
  if isInd then ((⟨0, 0⟩, some .notDirectFileBlock), b)
  else
    match b.ids with
    | none => ((⟨0, 0⟩, none), b)
    | some ids0 =>
        match ids0.get ⟨tlf, doRawDefaultHash contents⟩ with
        | (some ptr, ids1) => ((ptr, none), { b with ids := some ids1 })
        | (none, ids1) => ((⟨0, 0⟩, none), { b with ids := some ids1 })

/-- The eviction loop of `makeRoomForSize`: while the new size does not
fit, evict the oldest transient entry and debit its bytes; stop when it
fits or when eviction makes no progress (sequentially: when the store is
empty, since `RemoveOldest` on a non-empty store always shrinks it). -/
def evictUntilFits :
    List (Nat × blockContainer) → Nat → Nat → Nat → List (Nat × blockContainer) × Nat
  | entries, totalBytes, size, cap =>
    if totalBytes + size ≤ cap then (entries, totalBytes)
    else
      match entries with
      | [] => ([], totalBytes)
      | e :: rest =>
          let sz := getCachedBlockSize e.2.block
          evictUntilFits rest (if totalBytes ≥ sz then totalBytes - sz else 0) size cap

/-- `makeRoomForSize`: with no transient store, fail without charging.
Otherwise evict until the size fits or nothing is left; when it still
does not fit, charge the size anyway for `Permanent` lifetimes and
report failure; when it fits, charge and report success. -/
def BlockCacheStandard.makeRoomForSize (b : BlockCacheStandard) (size : Nat)
    (lifetime : BlockCacheLifetime) : Bool × BlockCacheStandard :=
  match b.cleanTransient with
  | none => (false, b)
  | some ct =>
      let cap := b.GetCleanBytesCapacity
      let p := evictUntilFits ct.entries b.cleanTotalBytes size cap
      let b2 := { b with cleanTransient := some { ct with entries := p.1 },
                         cleanTotalBytes := p.2 }
      if p.2 + size > cap then
        if lifetime = .permanentEntry then
          (false, { b2 with cleanTotalBytes := p.2 + size })
        else
          (false, b2)
      else
        (true, { b2 with cleanTotalBytes := p.2 + size })

/-- The `TransientEntry` tail of `PutWithPrefetch` (after the dedup-index
write): probe the transient LRU (refreshing recency and OR-merging the
prefetch flag on a hit), make room only when the pointer was not cached,
then either fail with a capacity error or insert, running the eviction
callback if the insert overflows the entry count. -/
def BlockCacheStandard.putTransient (b1 : BlockCacheStandard) (ptrId : Nat)
    (block : Block) (hasPrefetched : Bool) : Option CacheError × BlockCacheStandard :=
  match b1.cleanTransient with
  | none => (none, b1)
  | some ct =>
      let g := ct.get ptrId
      let b2 := { b1 with cleanTransient := some g.2 }
      let hp :=
        match g.1 with
        | some bc => hasPrefetched || bc.hasPrefetched
        | none => hasPrefetched
      let mr :=
        if g.1.isSome then (true, b2)
        else b2.makeRoomForSize (getCachedBlockSize block) .transientEntry
      if mr.1 then
        match mr.2.cleanTransient with
        | none => (none, mr.2)
        | some ct2 =>
            let a := ct2.add ptrId ⟨block, hp⟩
            let b3 := { mr.2 with cleanTransient := some a.1 }
            match a.2 with
            | some e => (none, b3.onEvict e.2)
            | none => (none, b3)
      else
        (some (.cachePutCacheFull ptrId), mr.2)

/-- The `PermanentEntry` tail of `PutWithPrefetch`: insert or overwrite
in the permanent map, and make room (charging the size no matter what)
only when the ID was not already present. -/
def BlockCacheStandard.putPermanent (b : BlockCacheStandard) (ptrId : Nat)
    (block : Block) : Option CacheError × BlockCacheStandard :=
  let wasInCache := (lookupKey b.cleanPermanent ptrId).isSome
  let b1 := { b with cleanPermanent :=
                eraseKey b.cleanPermanent ptrId ++ [(ptrId, block)] }
  if wasInCache then (none, b1)
  else (none, (b1.makeRoomForSize (getCachedBlockSize block) .permanentEntry).2)

/-- `PutWithPrefetch`: type-guard the block, dispatch on lifetime; a
Transient put of a direct file block first records the dedup-index entry
with a zeroed refnonce. -/
def BlockCacheStandard.PutWithPrefetch (b : BlockCacheStandard) (ptr : BlockPointer)
    (tlf : Nat) (block : Block) (lifetime : BlockCacheLifetime)
    (hasPrefetched : Bool) : Option CacheError × BlockCacheStandard :=
  match block with
  | .commonBlock _ => (some .attemptedCommonBlock, b)
  | .otherBlock _ => (some .unknownBlockType, b)
  | _ =>
    match lifetime with
    | .noCacheEntry => (none, b)
    | .transientEntry =>
        let b1 :=
          match block, b.ids with
          | .fileBlock false contents _, some ids0 =>
              let key : idCacheKey := ⟨tlf, doRawDefaultHash contents⟩
              let ptr2 : BlockPointer := { ptr with refNonce := zeroRefNonce }
              { b with ids := some (ids0.add key ptr2).1 }
          | _, _ => b
        b1.putTransient ptr.id block hasPrefetched
    | .permanentEntry =>
        b.putPermanent ptr.id block

/-- `Put`: `PutWithPrefetch` with `hasPrefetched = true`. -/
def BlockCacheStandard.Put (b : BlockCacheStandard) (ptr : BlockPointer) (tlf : Nat)
    (block : Block) (lifetime : BlockCacheLifetime) :
    Option CacheError × BlockCacheStandard :=
  b.PutWithPrefetch ptr tlf block lifetime true

/-- `DeletePermanent`: remove the entry, if any, and debit its size. -/
def BlockCacheStandard.DeletePermanent (b : BlockCacheStandard) (id : Nat) :
    Option CacheError × BlockCacheStandard :=
  match lookupKey b.cleanPermanent id with
  | some block =>
      (none, BlockCacheStandard.subtractBlockBytes
        { b with cleanPermanent := eraseKey b.cleanPermanent id } block)
  | none => (none, b)

/-- `DeleteTransient`: on a hit, forget the dedup entry of a direct file
block, then remove the transient entry (the library fires the eviction
callback, debiting the bytes). -/
def BlockCacheStandard.DeleteTransient (b : BlockCacheStandard) (ptr : BlockPointer)
    (tlf : Nat) : Option CacheError × BlockCacheStandard :=
  match b.cleanTransient with
  | none => (none, b)
  | some ct =>
      match ct.get ptr.id with
      | (none, _) => (none, b)
      | (some bc, ct2) =>
          let b1 := { b with cleanTransient := some ct2 }
          let b2 :=
            match bc.block, b1.ids with
            | .fileBlock false contents _, some ids0 =>
                let ids1 := (ids0.removeKey ⟨tlf, doRawDefaultHash contents⟩).2
                { b1 with ids := some ids1 }
            | _, _ => b1
          match b2.cleanTransient with
          | none => (none, b2)
          | some ct3 =>
              match ct3.removeKey ptr.id with
              | (some bc2, ct4) =>
                  (none, ({ b2 with cleanTransient := some ct4 }).onEvict bc2)
              | (none, ct4) => (none, { b2 with cleanTransient := some ct4 })

/-- `DeleteKnownPtr`: forget only the dedup entry. -/
def BlockCacheStandard.DeleteKnownPtr (b : BlockCacheStandard) (tlf : Nat)
    (isInd : Bool) (contents : List Nat) : Option CacheError × BlockCacheStandard :=
  if isInd then (some .notDirectFileBlock, b)
  else
    match b.ids with
    | none => (none, b)
    | some ids0 =>
        let ids1 := (ids0.removeKey ⟨tlf, doRawDefaultHash contents⟩).2
        (none, { b with ids := some ids1 })

/-! ## Operation traces over the cache -/

/-- One cache operation (the public mutators and queries). -/
inductive CacheOp where
  | putOp (ptr : BlockPointer) (tlf : Nat) (block : Block)
      (lifetime : BlockCacheLifetime) (hasPrefetched : Bool)
  | getOp (ptr : BlockPointer)
  | checkOp (tlf : Nat) (isInd : Bool) (contents : List Nat)
  | deleteTransientOp (ptr : BlockPointer) (tlf : Nat)
  | deletePermanentOp (id : Nat)
  | deleteKnownPtrOp (tlf : Nat) (isInd : Bool) (contents : List Nat)
  | setCapacityOp (capacity : Nat)
deriving DecidableEq

/-- The state after one operation. -/
def applyOp (b : BlockCacheStandard) : CacheOp → BlockCacheStandard
  | .putOp ptr tlf block lifetime hp => (b.PutWithPrefetch ptr tlf block lifetime hp).2
  | .getOp ptr => (b.GetWithPrefetch ptr).2
  | .checkOp tlf isInd contents => (b.CheckForKnownPtr tlf isInd contents).2
  | .deleteTransientOp ptr tlf => (b.DeleteTransient ptr tlf).2
  | .deletePermanentOp id => (b.DeletePermanent id).2
  | .deleteKnownPtrOp tlf isInd contents => (b.DeleteKnownPtr tlf isInd contents).2
  | .setCapacityOp capacity => b.SetCleanBytesCapacity capacity

/-- The state after a sequence of operations. -/
def runTrace (b : BlockCacheStandard) (ops : List CacheOp) : BlockCacheStandard :=
  ops.foldl applyOp b

/-- All states a trace passes through, the initial one included. -/
def statesOf (b : BlockCacheStandard) : List CacheOp → List BlockCacheStandard
  | [] => [b]
  | op :: rest => b :: statesOf (applyOp b op) rest

/-! ## Derived observations and invariants -/

/-- Bytes of all blocks resident in the transient store. -/
def sumTransientBytes (l : List (Nat × blockContainer)) : Nat :=
  sumVals (fun bc => getCachedBlockSize bc.block) l

/-- Bytes of all blocks resident in the permanent store. -/
def sumPermanentBytes (l : List (Nat × Block)) : Nat :=
  sumVals getCachedBlockSize l

/-- Sum of `sizeOf(b)` over all blocks resident in either store. -/
def residentBytes (b : BlockCacheStandard) : Nat :=
  (match b.cleanTransient with
   | none => 0
   | some ct => sumTransientBytes ct.entries) + sumPermanentBytes b.cleanPermanent

/-- The byte accountant is exact: `usedBytes` equals the resident sum. -/
def AccountingOK (b : BlockCacheStandard) : Prop :=
  b.cleanTotalBytes = residentBytes b

instance (b : BlockCacheStandard) : Decidable (AccountingOK b) := by
  unfold AccountingOK; infer_instance

/-- The transient entry stored under a block ID, if any. -/
def transientLookup (b : BlockCacheStandard) (id : Nat) : Option blockContainer :=
  match b.cleanTransient with
  | none => none
  | some ct => lookupKey ct.entries id

/-- The dedup-index entry stored under a key, if any. -/
def idsLookup (b : BlockCacheStandard) (k : idCacheKey) : Option BlockPointer :=
  match b.ids with
  | none => none
  | some l => lookupKey l.entries k

/-- The keys currently present in the dedup index. -/
def idsKeys (b : BlockCacheStandard) : List idCacheKey :=
  match b.ids with
  | none => []
  | some l => l.entries.map Prod.fst

/-- The keys currently present in the transient store. -/
def transientKeys (b : BlockCacheStandard) : List Nat :=
  match b.cleanTransient with
  | none => []
  | some ct => ct.entries.map Prod.fst

/-- An operation does not re-put a pointer with a block of a different
size (the documented precondition of `PutWithPrefetch`: a cached block
never changes its size between puts). -/
def sizeStableB (b : BlockCacheStandard) : CacheOp → Bool
  | .putOp ptr _ block .transientEntry _ =>
      match transientLookup b ptr.id with
      | some bc => getCachedBlockSize block == getCachedBlockSize bc.block
      | none => true
  | .putOp ptr _ block .permanentEntry _ =>
      match lookupKey b.cleanPermanent ptr.id with
      | some b0 => getCachedBlockSize block == getCachedBlockSize b0
      | none => true
  | _ => true

/-- Every step of the trace is size-stable in the state it runs in. -/
def sizeStableTrace (b : BlockCacheStandard) : List CacheOp → Bool
  | [] => true
  | op :: rest => sizeStableB b op && sizeStableTrace (applyOp b op) rest

/-- Well-formedness of a cache with a transient store: both LRU caps are
positive is not needed, only the transient one; keys of both stores are
distinct; the byte accountant is exact. -/
def CacheInv (b : BlockCacheStandard) : Prop :=
  ∃ ct, b.cleanTransient = some ct ∧ 0 < ct.cap ∧ keysNodup ct.entries ∧
    keysNodup b.cleanPermanent ∧ AccountingOK b

/-! ## Lemmas about association lists -/

theorem lookupKey_eraseKey_self {κ V : Type} [DecidableEq κ] (l : List (κ × V)) (k : κ) :
    lookupKey (eraseKey l k) k = none := by
  induction l with
  | nil => rfl
  | cons e rest ih =>
      by_cases h : e.1 = k
      · simpa [eraseKey, h] using ih
      · simpa [eraseKey, lookupKey, h] using ih

theorem lookupKey_eraseKey_ne {κ V : Type} [DecidableEq κ] (l : List (κ × V)) (k k2 : κ)
    (h : k2 ≠ k) : lookupKey (eraseKey l k) k2 = lookupKey l k2 := by
  induction l with
  | nil => rfl
  | cons e rest ih =>
      by_cases he : e.1 = k
      · have hne2 : e.1 ≠ k2 := by rw [he]; exact fun hh => h hh.symm
        have hstep : eraseKey (e :: rest) k = eraseKey rest k := by simp [eraseKey, he]
        rw [hstep, ih]
        simp [lookupKey, hne2]
      · have hstep : eraseKey (e :: rest) k = e :: eraseKey rest k := by
          simp [eraseKey, he]
        rw [hstep]
        by_cases he2 : e.1 = k2
        · simp [lookupKey, he2]
        · simp [lookupKey, he2, ih]

theorem eraseKey_of_lookup_none {κ V : Type} [DecidableEq κ] (l : List (κ × V)) (k : κ)
    (h : lookupKey l k = none) : eraseKey l k = l := by
  induction l with
  | nil => rfl
  | cons e rest ih =>
      by_cases he : e.1 = k
      · simp [lookupKey, he] at h
      · simp [lookupKey, he] at h
        simp [eraseKey, he, List.filter] at *
        exact ih h

theorem lookupKey_append_none {κ V : Type} [DecidableEq κ] (l1 l2 : List (κ × V)) (k : κ)
    (h : lookupKey l1 k = none) : lookupKey (l1 ++ l2) k = lookupKey l2 k := by
  induction l1 with
  | nil => rfl
  | cons e rest ih =>
      by_cases he : e.1 = k
      · simp [lookupKey, he] at h
      · simp [lookupKey, he] at h ⊢
        exact ih h

theorem lookupKey_append_some {κ V : Type} [DecidableEq κ] (l1 l2 : List (κ × V)) (k : κ)
    (v : V) (h : lookupKey l1 k = some v) : lookupKey (l1 ++ l2) k = some v := by
  induction l1 with
  | nil => simp [lookupKey] at h
  | cons e rest ih =>
      by_cases he : e.1 = k
      · simp [lookupKey, he] at h ⊢
        exact h
      · simp [lookupKey, he] at h ⊢
        exact ih h

theorem lookupKey_none_iff {κ V : Type} [DecidableEq κ] (l : List (κ × V)) (k : κ) :
    lookupKey l k = none ↔ k ∉ l.map Prod.fst := by
  induction l with
  | nil => simp [lookupKey]
  | cons e rest ih =>
      by_cases he : e.1 = k
      · simp [lookupKey, he]
      · have he2 : ¬(k = e.1) := fun hh => he hh.symm
        simp [lookupKey, he, he2, ih]

theorem sumVals_cons {κ V : Type} (f : V → Nat) (e : κ × V) (l : List (κ × V)) :
    sumVals f (e :: l) = f e.2 + sumVals f l := by
  simp [sumVals]

theorem sumVals_append {κ V : Type} (f : V → Nat) (l1 l2 : List (κ × V)) :
    sumVals f (l1 ++ l2) = sumVals f l1 + sumVals f l2 := by
  simp [sumVals]

theorem keysNodup_tail {κ V : Type} (e : κ × V) (l : List (κ × V))
    (h : keysNodup (e :: l)) : keysNodup l := by
  have h2 : (e.1 :: l.map Prod.fst).Nodup := h
  rw [List.nodup_cons] at h2
  exact h2.2

theorem keysNodup_head_notin {κ V : Type} (e : κ × V) (l : List (κ × V))
    (h : keysNodup (e :: l)) : e.1 ∉ l.map Prod.fst := by
  have h2 : (e.1 :: l.map Prod.fst).Nodup := h
  rw [List.nodup_cons] at h2
  exact h2.1

theorem sumVals_erase {κ V : Type} [DecidableEq κ] (f : V → Nat) (l : List (κ × V))
    (k : κ) (v : V) (hnd : keysNodup l) (h : lookupKey l k = some v) :
    sumVals f l = f v + sumVals f (eraseKey l k) := by
  induction l with
  | nil => simp [lookupKey] at h
  | cons e rest ih =>
      by_cases he : e.1 = k
      · simp [lookupKey, he] at h
        have hknotin : k ∉ rest.map Prod.fst := he ▸ keysNodup_head_notin e rest hnd
        have herase : eraseKey rest k = rest :=
          eraseKey_of_lookup_none rest k ((lookupKey_none_iff rest k).2 hknotin)
        have hstep : eraseKey (e :: rest) k = eraseKey rest k := by
          simp [eraseKey, he]
        rw [hstep, herase, sumVals_cons, h]
      · simp [lookupKey, he] at h
        have hnd2 : keysNodup rest := keysNodup_tail e rest hnd
        have hstep : eraseKey (e :: rest) k = e :: eraseKey rest k := by
          simp [eraseKey, he]
        rw [hstep, sumVals_cons, sumVals_cons, ih hnd2 h]
        omega

theorem keysNodup_eraseKey {κ V : Type} [DecidableEq κ] (l : List (κ × V)) (k : κ)
    (h : keysNodup l) : keysNodup (eraseKey l k) := by
  have hsub : (eraseKey l k).map Prod.fst |>.Sublist (l.map Prod.fst) :=
    List.Sublist.map Prod.fst (List.filter_sublist l)
  exact List.Nodup.sublist hsub h

theorem keysNodup_append_singleton {κ V : Type} [DecidableEq κ] (l : List (κ × V))
    (k : κ) (v : V) (h : keysNodup l) (hk : lookupKey l k = none) :
    keysNodup (l ++ [(k, v)]) := by
  have hnotin : k ∉ l.map Prod.fst := (lookupKey_none_iff l k).1 hk
  unfold keysNodup at h ⊢
  rw [List.map_append, List.nodup_append]
  refine ⟨h, List.nodup_singleton _, ?_⟩
  intro a ha hb
  simp at hb
  subst hb
  exact hnotin ha

theorem keysNodup_refresh {κ V : Type} [DecidableEq κ] (l : List (κ × V)) (k : κ) (v : V)
    (h : keysNodup l) : keysNodup (eraseKey l k ++ [(k, v)]) :=
  keysNodup_append_singleton _ _ _ (keysNodup_eraseKey l k h) (lookupKey_eraseKey_self l k)

theorem sumVals_refresh {κ V : Type} [DecidableEq κ] (f : V → Nat) (l : List (κ × V))
    (k : κ) (v : V) (hnd : keysNodup l) (h : lookupKey l k = some v) :
    sumVals f (eraseKey l k ++ [(k, v)]) = sumVals f l := by
  rw [sumVals_append, sumVals_erase f l k v hnd h]
  simp [sumVals]
  omega

theorem lookupKey_refresh_self {κ V : Type} [DecidableEq κ] (l : List (κ × V)) (k : κ)
    (v : V) : lookupKey (eraseKey l k ++ [(k, v)]) k = some v := by
  rw [lookupKey_append_none _ _ _ (lookupKey_eraseKey_self l k)]
  simp [lookupKey]

theorem lookupKey_refresh_ne {κ V : Type} [DecidableEq κ] (l : List (κ × V)) (k k2 : κ)
    (v : V) (h : k2 ≠ k) :
    lookupKey (eraseKey l k ++ [(k, v)]) k2 = lookupKey l k2 := by
  cases hl : lookupKey (eraseKey l k) k2 with
  | none =>
      rw [lookupKey_append_none _ _ _ hl]
      have hne : ¬(k = k2) := fun hh => h hh.symm
      simp [lookupKey, hne]
      rw [← lookupKey_eraseKey_ne l k k2 h, hl]
  | some w =>
      rw [lookupKey_append_some _ _ _ _ hl]
      rw [← lookupKey_eraseKey_ne l k k2 h, hl]

theorem sumTransientBytes_cons (e : Nat × blockContainer) (l : List (Nat × blockContainer)) :
    sumTransientBytes (e :: l) = getCachedBlockSize e.2.block + sumTransientBytes l :=
  sumVals_cons _ e l

theorem lookupKey_cons_none {κ V : Type} [DecidableEq κ] {e : κ × V} {rest : List (κ × V)}
    {k : κ} (h : lookupKey (e :: rest) k = none) :
    e.1 ≠ k ∧ lookupKey rest k = none := by
  by_cases he : e.1 = k
  · simp [lookupKey, he] at h
  · simp [lookupKey, he] at h
    exact ⟨he, h⟩

/-! ## Lemmas about the eviction loop -/

theorem evictUntilFits_suffix (l : List (Nat × blockContainer)) (bytes size cap : Nat) :
    (evictUntilFits l bytes size cap).1 <:+ l := by
  induction l generalizing bytes with
  | nil =>
      rw [evictUntilFits]
      split
      · exact List.suffix_refl _
      · exact List.suffix_refl _
  | cons e rest ih =>
      rw [evictUntilFits]
      by_cases hfit : bytes + size ≤ cap
      · rw [if_pos hfit]
      · rw [if_neg hfit]
        exact (ih _).trans (List.suffix_cons e rest)

theorem evictUntilFits_bytes (l : List (Nat × blockContainer)) (bytes size cap P : Nat)
    (hb : bytes = sumTransientBytes l + P) :
    (evictUntilFits l bytes size cap).2 =
      sumTransientBytes (evictUntilFits l bytes size cap).1 + P := by
  induction l generalizing bytes with
  | nil =>
      rw [evictUntilFits]
      split
      · exact hb
      · exact hb
  | cons e rest ih =>
      rw [evictUntilFits]
      by_cases hfit : bytes + size ≤ cap
      · rw [if_pos hfit]
        exact hb
      · rw [if_neg hfit]
        have hsz : getCachedBlockSize e.2.block ≤ bytes := by
          rw [hb, sumTransientBytes_cons]
          omega
        have harg : (if bytes ≥ getCachedBlockSize e.2.block then
            bytes - getCachedBlockSize e.2.block else 0) = sumTransientBytes rest + P := by
          rw [if_pos hsz, hb, sumTransientBytes_cons]
          omega
        show (evictUntilFits rest _ size cap).2 = sumTransientBytes (evictUntilFits rest _ size cap).1 + P
        rw [harg]
        exact ih _ rfl

theorem evictUntilFits_fits (l : List (Nat × blockContainer)) (bytes size cap : Nat)
    (hb : bytes = sumTransientBytes l) (hsize : size ≤ cap) :
    (evictUntilFits l bytes size cap).2 + size ≤ cap := by
  induction l generalizing bytes with
  | nil =>
      rw [evictUntilFits]
      by_cases hfit : bytes + size ≤ cap
      · rw [if_pos hfit]
        exact hfit
      · exfalso
        apply hfit
        have hz : bytes = 0 := by
          rw [hb]
          rfl
        omega
  | cons e rest ih =>
      rw [evictUntilFits]
      by_cases hfit : bytes + size ≤ cap
      · rw [if_pos hfit]
        exact hfit
      · rw [if_neg hfit]
        have hsz : getCachedBlockSize e.2.block ≤ bytes := by
          rw [hb, sumTransientBytes_cons]
          omega
        have harg : (if bytes ≥ getCachedBlockSize e.2.block then
            bytes - getCachedBlockSize e.2.block else 0) = sumTransientBytes rest := by
          rw [if_pos hsz, hb, sumTransientBytes_cons]
          omega
        show (evictUntilFits rest _ size cap).2 + size ≤ cap
        rw [harg]
        exact ih _ rfl

/-! ## Lemmas about the LRU model -/

theorem LRU.add_lookup_self {κ V : Type} [DecidableEq κ] (c : LRU κ V) (k : κ) (v : V)
    (hcap : 0 < c.cap) : lookupKey ((c.add k v).1).entries k = some v := by
  by_cases hin : (lookupKey c.entries k).isSome
  · unfold LRU.add
    rw [if_pos hin]
    exact lookupKey_refresh_self c.entries k v
  · have hnone : lookupKey c.entries k = none := by
      cases h : lookupKey c.entries k with
      | none => rfl
      | some w => rw [h] at hin; simp at hin
    unfold LRU.add
    rw [if_neg hin]
    cases hc : c.entries with
    | nil =>
        simp only [hc, List.nil_append]
        have hlen : ¬(c.cap = 0) := by omega
        simp [hlen, lookupKey]
    | cons a rest =>
        rw [hc] at hnone
        obtain ⟨hak, hrest⟩ := lookupKey_cons_none hnone
        simp only [hc, List.cons_append]
        by_cases hlen : (a :: (rest ++ [(k, v)])).length > c.cap
        · simp only [if_pos hlen]
          rw [lookupKey_append_none _ _ _ hrest]
          simp [lookupKey]
        · simp only [if_neg hlen]
          show lookupKey (a :: (rest ++ [(k, v)])) k = some v
          have hlk : lookupKey (rest ++ [(k, v)]) k = some v := by
            rw [lookupKey_append_none _ _ _ hrest]
            simp [lookupKey]
          simp [lookupKey, hak, hlk]

theorem eraseKey_append {κ V : Type} [DecidableEq κ] (l1 l2 : List (κ × V)) (k : κ) :
    eraseKey (l1 ++ l2) k = eraseKey l1 k ++ eraseKey l2 k :=
  List.filter_append _ _

theorem eraseKey_singleton_self {κ V : Type} [DecidableEq κ] (k : κ) (v : V) :
    eraseKey [(k, v)] k = [] := by
  simp [eraseKey]

theorem eraseKey_idem {κ V : Type} [DecidableEq κ] (l : List (κ × V)) (k : κ) :
    eraseKey (eraseKey l k) k = eraseKey l k :=
  eraseKey_of_lookup_none _ _ (lookupKey_eraseKey_self l k)

theorem eraseKey_refresh {κ V : Type} [DecidableEq κ] (l : List (κ × V)) (k : κ) (v : V) :
    eraseKey (eraseKey l k ++ [(k, v)]) k = eraseKey l k := by
  rw [eraseKey_append, eraseKey_idem, eraseKey_singleton_self, List.append_nil]

theorem keysNodup_suffix {κ V : Type} (l1 l2 : List (κ × V)) (h : l1 <:+ l2)
    (hnd : keysNodup l2) : keysNodup l1 :=
  List.Nodup.sublist (List.Sublist.map _ h.sublist) hnd

theorem lookupKey_none_of_suffix {κ V : Type} [DecidableEq κ] (l1 l2 : List (κ × V))
    (k : κ) (h : l1 <:+ l2) (hn : lookupKey l2 k = none) : lookupKey l1 k = none := by
  rw [lookupKey_none_iff] at hn ⊢
  intro hm
  exact hn ((List.Sublist.map Prod.fst h.sublist).subset hm)

theorem LRU.get_miss {κ V : Type} [DecidableEq κ] (c : LRU κ V) (k : κ)
    (h : lookupKey c.entries k = none) : c.get k = (none, c) := by
  unfold LRU.get
  rw [h]

theorem LRU.get_hit {κ V : Type} [DecidableEq κ] (c : LRU κ V) (k : κ) (v : V)
    (h : lookupKey c.entries k = some v) :
    c.get k = (some v, { cap := c.cap, entries := eraseKey c.entries k ++ [(k, v)] }) := by
  unfold LRU.get
  rw [h]

theorem LRU.add_hit {κ V : Type} [DecidableEq κ] (c : LRU κ V) (k : κ) (v w : V)
    (h : lookupKey c.entries k = some w) :
    c.add k v = ({ cap := c.cap, entries := eraseKey c.entries k ++ [(k, v)] }, none) := by
  have hin : (lookupKey c.entries k).isSome := by rw [h]; rfl
  unfold LRU.add
  rw [if_pos hin]

theorem LRU.add_new_cases {κ V : Type} [DecidableEq κ] (c : LRU κ V) (k : κ) (v : V)
    (hnone : lookupKey c.entries k = none) (hcap : 0 < c.cap) :
    c.add k v = ({ cap := c.cap, entries := c.entries ++ [(k, v)] }, none) ∨
    (∃ e rest, c.entries = e :: rest ∧
      c.add k v = ({ cap := c.cap, entries := rest ++ [(k, v)] }, some e)) := by
  have hin : ¬(lookupKey c.entries k).isSome := by rw [hnone]; simp
  unfold LRU.add
  rw [if_neg hin]
  cases hc : c.entries with
  | nil =>
      left
      simp only [hc, List.nil_append]
      have hlen : ¬(c.cap = 0) := by omega
      simp [hlen]
  | cons a rest =>
      simp only [hc, List.cons_append]
      by_cases hlen : (a :: (rest ++ [(k, v)])).length > c.cap
      · right
        refine ⟨a, rest, rfl, ?_⟩
        rw [if_pos hlen]
      · left
        rw [if_neg hlen]

/-! ## Field-level description of `makeRoomForSize` -/

theorem makeRoomForSize_frame (b : BlockCacheStandard) (ct : LRU Nat blockContainer)
    (size : Nat) (lt : BlockCacheLifetime) (h : b.cleanTransient = some ct) :
    (b.makeRoomForSize size lt).2.cleanPermanent = b.cleanPermanent ∧
    (b.makeRoomForSize size lt).2.ids = b.ids ∧
    (b.makeRoomForSize size lt).2.cleanBytesCapacity = b.cleanBytesCapacity ∧
    (b.makeRoomForSize size lt).2.cleanTransient =
      some { cap := ct.cap,
             entries :=
               (evictUntilFits ct.entries b.cleanTotalBytes size b.cleanBytesCapacity).1 } := by
  unfold BlockCacheStandard.makeRoomForSize BlockCacheStandard.GetCleanBytesCapacity
  rw [h]
  dsimp only
  split
  · split
    · simp
    · simp
  · simp

theorem makeRoomForSize_bytes_perm (b : BlockCacheStandard) (ct : LRU Nat blockContainer)
    (size : Nat) (h : b.cleanTransient = some ct) :
    (b.makeRoomForSize size .permanentEntry).2.cleanTotalBytes =
      (evictUntilFits ct.entries b.cleanTotalBytes size b.cleanBytesCapacity).2 + size := by
  unfold BlockCacheStandard.makeRoomForSize BlockCacheStandard.GetCleanBytesCapacity
  rw [h]
  dsimp only
  split
  · simp
  · simp

theorem makeRoomForSize_transient_true (b : BlockCacheStandard) (ct : LRU Nat blockContainer)
    (size : Nat) (h : b.cleanTransient = some ct)
    (hfit : (evictUntilFits ct.entries b.cleanTotalBytes size b.cleanBytesCapacity).2 + size ≤
      b.cleanBytesCapacity) :
    (b.makeRoomForSize size .transientEntry).1 = true ∧
    (b.makeRoomForSize size .transientEntry).2.cleanTotalBytes =
      (evictUntilFits ct.entries b.cleanTotalBytes size b.cleanBytesCapacity).2 + size := by
  unfold BlockCacheStandard.makeRoomForSize BlockCacheStandard.GetCleanBytesCapacity
  rw [h]
  dsimp only
  rw [if_neg (by omega)]
  simp

theorem makeRoomForSize_transient_false (b : BlockCacheStandard) (ct : LRU Nat blockContainer)
    (size : Nat) (h : b.cleanTransient = some ct)
    (hfit : b.cleanBytesCapacity <
      (evictUntilFits ct.entries b.cleanTotalBytes size b.cleanBytesCapacity).2 + size) :
    (b.makeRoomForSize size .transientEntry).1 = false ∧
    (b.makeRoomForSize size .transientEntry).2.cleanTotalBytes =
      (evictUntilFits ct.entries b.cleanTotalBytes size b.cleanBytesCapacity).2 := by
  unfold BlockCacheStandard.makeRoomForSize BlockCacheStandard.GetCleanBytesCapacity
  rw [h]
  dsimp only
  rw [if_pos (by omega)]
  simp

theorem putTransient_hit (b1 : BlockCacheStandard) (ct : LRU Nat blockContainer)
    (ptrId : Nat) (block : Block) (hp0 : Bool) (bc : blockContainer)
    (hct : b1.cleanTransient = some ct) (hl : lookupKey ct.entries ptrId = some bc) :
    b1.putTransient ptrId block hp0 =
      (none, { b1 with cleanTransient := some ⟨ct.cap, eraseKey ct.entries ptrId ++ [(ptrId, ⟨block, hp0 || bc.hasPrefetched⟩)]⟩ }) := by
  unfold BlockCacheStandard.putTransient
  rw [hct]
  dsimp only
  rw [LRU.get_hit ct ptrId bc hl]
  dsimp only
  simp only [Option.isSome_some, if_true]
  rw [LRU.add_hit ⟨ct.cap, eraseKey ct.entries ptrId ++ [(ptrId, bc)]⟩ ptrId
    ⟨block, hp0 || bc.hasPrefetched⟩ bc (lookupKey_refresh_self ct.entries ptrId bc)]
  dsimp only
  rw [eraseKey_refresh]

theorem putTransient_miss_eq (b1 : BlockCacheStandard) (ct : LRU Nat blockContainer)
    (ptrId : Nat) (block : Block) (hp0 : Bool)
    (hct : b1.cleanTransient = some ct) (hl : lookupKey ct.entries ptrId = none) :
    b1.putTransient ptrId block hp0 =
      (let mr := b1.makeRoomForSize (getCachedBlockSize block) .transientEntry
       if mr.1 then
         match mr.2.cleanTransient with
         | none => (none, mr.2)
         | some ct2 =>
             let a := ct2.add ptrId ⟨block, hp0⟩
             let b3 := { mr.2 with cleanTransient := some a.1 }
             match a.2 with
             | some e => (none, b3.onEvict e.2)
             | none => (none, b3)
       else (some (.cachePutCacheFull ptrId), mr.2)) := by
  unfold BlockCacheStandard.putTransient
  rw [hct]
  dsimp only
  rw [LRU.get_miss ct ptrId hl]
  dsimp only
  have hb2 : { b1 with cleanTransient := some ct } = b1 := by rw [← hct]
  rw [hb2]
  simp only [Option.isSome_none, Bool.false_eq_true, if_false]

theorem sumTransientBytes_single (k : Nat) (c : blockContainer) :
    sumTransientBytes [(k, c)] = getCachedBlockSize c.block := by
  simp [sumTransientBytes, sumVals]

theorem CacheInv_putTransient (b1 : BlockCacheStandard) (ptrId : Nat) (block : Block)
    (hp0 : Bool) (hInv : CacheInv b1)
    (hstable : ∀ bc, transientLookup b1 ptrId = some bc →
      getCachedBlockSize block = getCachedBlockSize bc.block) :
    CacheInv (b1.putTransient ptrId block hp0).2 := by
  obtain ⟨ct, hct, hcap, hndT, hndP, hacc⟩ := hInv
  have haccT : b1.cleanTotalBytes =
      sumTransientBytes ct.entries + sumPermanentBytes b1.cleanPermanent := by
    have := hacc
    rw [AccountingOK, residentBytes, hct] at this
    exact this
  cases hl : lookupKey ct.entries ptrId with
  | some bc =>
      rw [putTransient_hit b1 ct ptrId block hp0 bc hct hl]
      have hsz : getCachedBlockSize block = getCachedBlockSize bc.block :=
        hstable bc (by rw [transientLookup, hct]; exact hl)
      have hsum : sumTransientBytes ct.entries =
          getCachedBlockSize bc.block + sumTransientBytes (eraseKey ct.entries ptrId) :=
        sumVals_erase _ ct.entries ptrId bc hndT hl
      refine ⟨_, rfl, hcap, keysNodup_refresh _ ptrId _ hndT, hndP, ?_⟩
      rw [AccountingOK, residentBytes]
      dsimp only
      rw [sumTransientBytes, sumVals_append]
      rw [← sumTransientBytes, ← sumTransientBytes, sumTransientBytes_single]
      dsimp only
      omega
  | none =>
      rw [putTransient_miss_eq b1 ct ptrId block hp0 hct hl]
      dsimp only
      obtain ⟨hfP, hfI, hfC, hfT⟩ :=
        makeRoomForSize_frame b1 ct (getCachedBlockSize block) .transientEntry hct
      have hbytesEq : (evictUntilFits ct.entries b1.cleanTotalBytes
          (getCachedBlockSize block) b1.cleanBytesCapacity).2 =
          sumTransientBytes (evictUntilFits ct.entries b1.cleanTotalBytes
            (getCachedBlockSize block) b1.cleanBytesCapacity).1 +
          sumPermanentBytes b1.cleanPermanent :=
        evictUntilFits_bytes ct.entries b1.cleanTotalBytes (getCachedBlockSize block)
          b1.cleanBytesCapacity (sumPermanentBytes b1.cleanPermanent) haccT
      have hsuf : (evictUntilFits ct.entries b1.cleanTotalBytes
          (getCachedBlockSize block) b1.cleanBytesCapacity).1 <:+ ct.entries :=
        evictUntilFits_suffix ct.entries b1.cleanTotalBytes (getCachedBlockSize block)
          b1.cleanBytesCapacity
      have hndT2 : keysNodup (evictUntilFits ct.entries b1.cleanTotalBytes
          (getCachedBlockSize block) b1.cleanBytesCapacity).1 :=
        keysNodup_suffix _ _ hsuf hndT
      have hl2 : lookupKey (evictUntilFits ct.entries b1.cleanTotalBytes
          (getCachedBlockSize block) b1.cleanBytesCapacity).1 ptrId = none :=
        lookupKey_none_of_suffix _ _ _ hsuf hl
      by_cases hfit : (evictUntilFits ct.entries b1.cleanTotalBytes
          (getCachedBlockSize block) b1.cleanBytesCapacity).2 + getCachedBlockSize block ≤
          b1.cleanBytesCapacity
      · obtain ⟨hflag, hbytes⟩ :=
          makeRoomForSize_transient_true b1 ct (getCachedBlockSize block) hct hfit
        rw [if_pos hflag, hfT]
        dsimp only
        rcases LRU.add_new_cases
            ⟨ct.cap, (evictUntilFits ct.entries b1.cleanTotalBytes
              (getCachedBlockSize block) b1.cleanBytesCapacity).1⟩ ptrId ⟨block, hp0⟩
            hl2 hcap with ha | ⟨e, rest, hrest, ha⟩
        · rw [ha]
          dsimp only
          refine ⟨_, rfl, hcap, ?_, ?_, ?_⟩
          · exact keysNodup_append_singleton _ ptrId _ hndT2 hl2
          · rw [hfP]
            exact hndP
          · rw [AccountingOK, residentBytes]
            dsimp only
            rw [hfP, hbytes]
            rw [sumTransientBytes, sumVals_append, ← sumTransientBytes,
              ← sumTransientBytes, sumTransientBytes_single]
            dsimp only
            omega
        · dsimp only at hrest
          rw [ha]
          dsimp only
          unfold BlockCacheStandard.onEvict BlockCacheStandard.subtractBlockBytes
          dsimp only
          have hsumcons : sumTransientBytes ((e :: rest : List (Nat × blockContainer))) =
              getCachedBlockSize e.2.block + sumTransientBytes rest :=
            sumTransientBytes_cons e rest
          rw [hrest] at hbytesEq
          rw [if_pos (by rw [hbytes]; omega :
            getCachedBlockSize e.2.block ≤
              (b1.makeRoomForSize (getCachedBlockSize block) .transientEntry).2.cleanTotalBytes)]
          refine ⟨_, rfl, hcap, ?_, ?_, ?_⟩
          · refine keysNodup_append_singleton _ ptrId _ ?_ ?_
            · exact keysNodup_tail e rest (hrest ▸ hndT2)
            · have := hrest ▸ hl2
              exact (lookupKey_cons_none this).2
          · rw [hfP]
            exact hndP
          · rw [AccountingOK, residentBytes]
            dsimp only
            rw [hfP, hbytes]
            rw [sumTransientBytes, sumVals_append, ← sumTransientBytes,
              ← sumTransientBytes, sumTransientBytes_single]
            dsimp only
            omega
      · obtain ⟨hflag, hbytes⟩ :=
          makeRoomForSize_transient_false b1 ct (getCachedBlockSize block) hct (by omega)
        rw [if_neg (by rw [hflag]; simp)]
        dsimp only
        refine ⟨_, hfT, hcap, hndT2, ?_, ?_⟩
        · rw [hfP]
          exact hndP
        · rw [AccountingOK, residentBytes, hfT, hfP, hbytes]
          dsimp only
          omega

theorem sumPermanentBytes_single (k : Nat) (blk : Block) :
    sumPermanentBytes [(k, blk)] = getCachedBlockSize blk := by
  simp [sumPermanentBytes, sumVals]

theorem CacheInv_putPermanent (b : BlockCacheStandard) (ptrId : Nat) (block : Block)
    (hInv : CacheInv b)
    (hstable : ∀ b0, lookupKey b.cleanPermanent ptrId = some b0 →
      getCachedBlockSize block = getCachedBlockSize b0) :
    CacheInv (b.putPermanent ptrId block).2 := by
  obtain ⟨ct, hct, hcap, hndT, hndP, hacc⟩ := hInv
  have haccT : b.cleanTotalBytes =
      sumTransientBytes ct.entries + sumPermanentBytes b.cleanPermanent := by
    have h2 := hacc
    rw [AccountingOK, residentBytes, hct] at h2
    exact h2
  unfold BlockCacheStandard.putPermanent
  dsimp only
  cases hl : lookupKey b.cleanPermanent ptrId with
  | some b0 =>
      simp only [hl, Option.isSome_some, if_true]
      refine ⟨ct, hct, hcap, hndT, ?_, ?_⟩
      · exact keysNodup_refresh _ ptrId _ hndP
      · have hsz : getCachedBlockSize block = getCachedBlockSize b0 := hstable b0 hl
        have hsum : sumPermanentBytes b.cleanPermanent =
            getCachedBlockSize b0 + sumPermanentBytes (eraseKey b.cleanPermanent ptrId) :=
          sumVals_erase _ b.cleanPermanent ptrId b0 hndP hl
        rw [AccountingOK, residentBytes]
        dsimp only
        rw [hct]
        dsimp only
        rw [sumPermanentBytes, sumVals_append, ← sumPermanentBytes, ← sumPermanentBytes,
          sumPermanentBytes_single]
        omega
  | none =>
      simp only [hl, Option.isSome_none, Bool.false_eq_true, if_false]
      have her : eraseKey b.cleanPermanent ptrId = b.cleanPermanent :=
        eraseKey_of_lookup_none _ _ hl
      rw [her]
      have hct1 : ({ b with cleanPermanent :=
          b.cleanPermanent ++ [(ptrId, block)] } : BlockCacheStandard).cleanTransient =
          some ct := hct
      obtain ⟨hfP, hfI, hfC, hfT⟩ := makeRoomForSize_frame _ ct (getCachedBlockSize block)
        .permanentEntry hct1
      have hbytes := makeRoomForSize_bytes_perm _ ct (getCachedBlockSize block) hct1
      dsimp only at hfP hfT hbytes
      have hbytesEq : (evictUntilFits ct.entries b.cleanTotalBytes
          (getCachedBlockSize block) b.cleanBytesCapacity).2 =
          sumTransientBytes (evictUntilFits ct.entries b.cleanTotalBytes
            (getCachedBlockSize block) b.cleanBytesCapacity).1 +
          sumPermanentBytes b.cleanPermanent :=
        evictUntilFits_bytes ct.entries b.cleanTotalBytes (getCachedBlockSize block)
          b.cleanBytesCapacity (sumPermanentBytes b.cleanPermanent) haccT
      have hsuf := evictUntilFits_suffix ct.entries b.cleanTotalBytes
        (getCachedBlockSize block) b.cleanBytesCapacity
      refine ⟨_, hfT, hcap, keysNodup_suffix _ _ hsuf hndT, ?_, ?_⟩
      · rw [hfP]
        exact keysNodup_append_singleton _ ptrId _ hndP hl
      · rw [AccountingOK, residentBytes, hfT, hfP, hbytes]
        dsimp only
        rw [sumPermanentBytes, sumVals_append, ← sumPermanentBytes, ← sumPermanentBytes,
          sumPermanentBytes_single]
        omega

theorem CacheInv_get (b : BlockCacheStandard) (ptr : BlockPointer) (hInv : CacheInv b) :
    CacheInv (b.GetWithPrefetch ptr).2 := by
  obtain ⟨ct, hct, hcap, hndT, hndP, hacc⟩ := hInv
  have haccT : b.cleanTotalBytes =
      sumTransientBytes ct.entries + sumPermanentBytes b.cleanPermanent := by
    have h2 := hacc
    rw [AccountingOK, residentBytes, hct] at h2
    exact h2
  unfold BlockCacheStandard.GetWithPrefetch
  rw [hct]
  dsimp only
  cases hl : lookupKey ct.entries ptr.id with
  | some bc =>
      rw [LRU.get_hit ct ptr.id bc hl]
      dsimp only
      refine ⟨_, rfl, hcap, keysNodup_refresh _ ptr.id _ hndT, hndP, ?_⟩
      rw [AccountingOK, residentBytes]
      dsimp only
      rw [sumTransientBytes, sumVals_refresh _ ct.entries ptr.id bc hndT hl,
        ← sumTransientBytes]
      exact haccT
  | none =>
      rw [LRU.get_miss ct ptr.id hl]
      dsimp only
      cases hp : lookupKey b.cleanPermanent ptr.id with
      | some blk =>
          dsimp only
          exact ⟨ct, hct, hcap, hndT, hndP, hacc⟩
      | none =>
          dsimp only
          exact ⟨ct, hct, hcap, hndT, hndP, hacc⟩

theorem CacheInv_ids (b : BlockCacheStandard) (X : Option (LRU idCacheKey BlockPointer))
    (hInv : CacheInv b) : CacheInv { b with ids := X } := by
  obtain ⟨ct, hct, hcap, hndT, hndP, hacc⟩ := hInv
  refine ⟨ct, hct, hcap, hndT, hndP, ?_⟩
  rw [AccountingOK, residentBytes]
  dsimp only
  have h2 := hacc
  rw [AccountingOK, residentBytes] at h2
  exact h2

theorem CacheInv_check (b : BlockCacheStandard) (tlf : Nat) (isInd : Bool)
    (contents : List Nat) (hInv : CacheInv b) :
    CacheInv (b.CheckForKnownPtr tlf isInd contents).2 := by
  unfold BlockCacheStandard.CheckForKnownPtr
  cases isInd with
  | true => exact hInv
  | false =>
      cases hids : b.ids with
      | none => exact hInv
      | some ids0 =>
          cases hg : ids0.get ⟨tlf, doRawDefaultHash contents⟩ with
          | mk fst snd =>
              cases fst with
              | some ptr =>
                  simp only [Bool.false_eq_true, if_false, hg]
                  exact CacheInv_ids b (some snd) hInv
              | none =>
                  simp only [Bool.false_eq_true, if_false, hg]
                  exact CacheInv_ids b (some snd) hInv

theorem CacheInv_setCapacity (b : BlockCacheStandard) (c : Nat) (hInv : CacheInv b) :
    CacheInv (b.SetCleanBytesCapacity c) := by
  obtain ⟨ct, hct, hcap, hndT, hndP, hacc⟩ := hInv
  exact ⟨ct, hct, hcap, hndT, hndP, hacc⟩

theorem CacheInv_deletePermanent (b : BlockCacheStandard) (id : Nat) (hInv : CacheInv b) :
    CacheInv (b.DeletePermanent id).2 := by
  obtain ⟨ct, hct, hcap, hndT, hndP, hacc⟩ := hInv
  have haccT : b.cleanTotalBytes =
      sumTransientBytes ct.entries + sumPermanentBytes b.cleanPermanent := by
    have h2 := hacc
    rw [AccountingOK, residentBytes, hct] at h2
    exact h2
  unfold BlockCacheStandard.DeletePermanent
  cases hl : lookupKey b.cleanPermanent id with
  | none =>
      dsimp only
      exact ⟨ct, hct, hcap, hndT, hndP, hacc⟩
  | some blk =>
      dsimp only
      unfold BlockCacheStandard.subtractBlockBytes
      dsimp only
      have hsum : sumPermanentBytes b.cleanPermanent =
          getCachedBlockSize blk + sumPermanentBytes (eraseKey b.cleanPermanent id) :=
        sumVals_erase _ b.cleanPermanent id blk hndP hl
      rw [if_pos (by omega : b.cleanTotalBytes >= getCachedBlockSize blk)]
      refine ⟨ct, hct, hcap, hndT, keysNodup_eraseKey _ _ hndP, ?_⟩
      rw [AccountingOK, residentBytes]
      dsimp only
      rw [hct]
      dsimp only
      omega

theorem CacheInv_deleteKnownPtr (b : BlockCacheStandard) (tlf : Nat) (isInd : Bool)
    (contents : List Nat) (hInv : CacheInv b) :
    CacheInv (b.DeleteKnownPtr tlf isInd contents).2 := by
  unfold BlockCacheStandard.DeleteKnownPtr
  cases isInd with
  | true => exact hInv
  | false =>
      cases hids : b.ids with
      | none => exact hInv
      | some ids0 =>
          simp only [Bool.false_eq_true, if_false, hids]
          exact CacheInv_ids b _ hInv

theorem CacheInv_deleteTransient (b : BlockCacheStandard) (ptr : BlockPointer) (tlf : Nat)
    (hInv : CacheInv b) : CacheInv (b.DeleteTransient ptr tlf).2 := by
  obtain ⟨ct, hct, hcap, hndT, hndP, hacc⟩ := hInv
  have haccT : b.cleanTotalBytes =
      sumTransientBytes ct.entries + sumPermanentBytes b.cleanPermanent := by
    have h2 := hacc
    rw [AccountingOK, residentBytes, hct] at h2
    exact h2
  unfold BlockCacheStandard.DeleteTransient
  rw [hct]
  dsimp only
  cases hl : lookupKey ct.entries ptr.id with
  | none =>
      rw [LRU.get_miss ct ptr.id hl]
      dsimp only
      exact ⟨ct, hct, hcap, hndT, hndP, hacc⟩
  | some bc =>
      rw [LRU.get_hit ct ptr.id bc hl]
      dsimp only
      have hrk : LRU.removeKey
          (⟨ct.cap, eraseKey ct.entries ptr.id ++ [(ptr.id, bc)]⟩ : LRU Nat blockContainer)
          ptr.id = (some bc, ⟨ct.cap, eraseKey ct.entries ptr.id⟩) := by
        unfold LRU.removeKey
        dsimp only
        rw [lookupKey_refresh_self, eraseKey_refresh]
      have hsum : sumTransientBytes ct.entries =
          getCachedBlockSize bc.block + sumTransientBytes (eraseKey ct.entries ptr.id) :=
        sumVals_erase _ ct.entries ptr.id bc hndT hl
      cases hids : b.ids with
      | none =>
          cases hblk : bc.block with
          | fileBlock isInd contents es =>
              cases isInd with
              | false =>
                  dsimp only
                  rw [hrk]
                  dsimp only
                  unfold BlockCacheStandard.onEvict BlockCacheStandard.subtractBlockBytes
                  dsimp only
                  rw [hblk]
                  rw [hblk] at hsum
                  rw [if_pos (by omega : b.cleanTotalBytes >= getCachedBlockSize (Block.fileBlock false contents es))]
                  refine ⟨_, rfl, hcap, keysNodup_eraseKey _ _ hndT, hndP, ?_⟩
                  rw [AccountingOK, residentBytes]
                  dsimp only
                  omega
              | true =>
                  dsimp only
                  rw [hrk]
                  dsimp only
                  unfold BlockCacheStandard.onEvict BlockCacheStandard.subtractBlockBytes
                  dsimp only
                  rw [hblk]
                  rw [hblk] at hsum
                  rw [if_pos (by omega : b.cleanTotalBytes >= getCachedBlockSize (Block.fileBlock true contents es))]
                  refine ⟨_, rfl, hcap, keysNodup_eraseKey _ _ hndT, hndP, ?_⟩
                  rw [AccountingOK, residentBytes]
                  dsimp only
                  omega
          | dirBlock es =>
              dsimp only
              rw [hrk]
              dsimp only
              unfold BlockCacheStandard.onEvict BlockCacheStandard.subtractBlockBytes
              dsimp only
              rw [hblk]
              rw [hblk] at hsum
              rw [if_pos (by omega : b.cleanTotalBytes >= getCachedBlockSize (Block.dirBlock es))]
              refine ⟨_, rfl, hcap, keysNodup_eraseKey _ _ hndT, hndP, ?_⟩
              rw [AccountingOK, residentBytes]
              dsimp only
              omega
          | commonBlock es =>
              dsimp only
              rw [hrk]
              dsimp only
              unfold BlockCacheStandard.onEvict BlockCacheStandard.subtractBlockBytes
              dsimp only
              rw [hblk]
              rw [hblk] at hsum
              rw [if_pos (by omega : b.cleanTotalBytes >= getCachedBlockSize (Block.commonBlock es))]
              refine ⟨_, rfl, hcap, keysNodup_eraseKey _ _ hndT, hndP, ?_⟩
              rw [AccountingOK, residentBytes]
              dsimp only
              omega
          | otherBlock es =>
              dsimp only
              rw [hrk]
              dsimp only
              unfold BlockCacheStandard.onEvict BlockCacheStandard.subtractBlockBytes
              dsimp only
              rw [hblk]
              rw [hblk] at hsum
              rw [if_pos (by omega : b.cleanTotalBytes >= getCachedBlockSize (Block.otherBlock es))]
              refine ⟨_, rfl, hcap, keysNodup_eraseKey _ _ hndT, hndP, ?_⟩
              rw [AccountingOK, residentBytes]
              dsimp only
              omega
      | some ids0 =>
          cases hblk : bc.block with
          | fileBlock isInd contents es =>
              cases isInd with
              | false =>
                  dsimp only
                  rw [hrk]
                  dsimp only
                  unfold BlockCacheStandard.onEvict BlockCacheStandard.subtractBlockBytes
                  dsimp only
                  rw [hblk]
                  rw [hblk] at hsum
                  rw [if_pos (by omega : b.cleanTotalBytes >= getCachedBlockSize (Block.fileBlock false contents es))]
                  refine ⟨_, rfl, hcap, keysNodup_eraseKey _ _ hndT, hndP, ?_⟩
                  rw [AccountingOK, residentBytes]
                  dsimp only
                  omega
              | true =>
                  dsimp only
                  rw [hrk]
                  dsimp only
                  unfold BlockCacheStandard.onEvict BlockCacheStandard.subtractBlockBytes
                  dsimp only
                  rw [hblk]
                  rw [hblk] at hsum
                  rw [if_pos (by omega : b.cleanTotalBytes >= getCachedBlockSize (Block.fileBlock true contents es))]
                  refine ⟨_, rfl, hcap, keysNodup_eraseKey _ _ hndT, hndP, ?_⟩
                  rw [AccountingOK, residentBytes]
                  dsimp only
                  omega
          | dirBlock es =>
              dsimp only
              rw [hrk]
              dsimp only
              unfold BlockCacheStandard.onEvict BlockCacheStandard.subtractBlockBytes
              dsimp only
              rw [hblk]
              rw [hblk] at hsum
              rw [if_pos (by omega : b.cleanTotalBytes >= getCachedBlockSize (Block.dirBlock es))]
              refine ⟨_, rfl, hcap, keysNodup_eraseKey _ _ hndT, hndP, ?_⟩
              rw [AccountingOK, residentBytes]
              dsimp only
              omega
          | commonBlock es =>
              dsimp only
              rw [hrk]
              dsimp only
              unfold BlockCacheStandard.onEvict BlockCacheStandard.subtractBlockBytes
              dsimp only
              rw [hblk]
              rw [hblk] at hsum
              rw [if_pos (by omega : b.cleanTotalBytes >= getCachedBlockSize (Block.commonBlock es))]
              refine ⟨_, rfl, hcap, keysNodup_eraseKey _ _ hndT, hndP, ?_⟩
              rw [AccountingOK, residentBytes]
              dsimp only
              omega
          | otherBlock es =>
              dsimp only
              rw [hrk]
              dsimp only
              unfold BlockCacheStandard.onEvict BlockCacheStandard.subtractBlockBytes
              dsimp only
              rw [hblk]
              rw [hblk] at hsum
              rw [if_pos (by omega : b.cleanTotalBytes >= getCachedBlockSize (Block.otherBlock es))]
              refine ⟨_, rfl, hcap, keysNodup_eraseKey _ _ hndT, hndP, ?_⟩
              rw [AccountingOK, residentBytes]
              dsimp only
              omega

/-! ## Reduction equations for `PutWithPrefetch` with a Transient lifetime -/

theorem put_transient_fileDirect_eq (b : BlockCacheStandard) (ptr : BlockPointer)
    (tlf : Nat) (contents : List Nat) (es : Nat) (hp : Bool)
    (ids0 : LRU idCacheKey BlockPointer) (hids : b.ids = some ids0) :
    b.PutWithPrefetch ptr tlf (.fileBlock false contents es) .transientEntry hp =
      BlockCacheStandard.putTransient
        { b with ids := some ((ids0.add ⟨tlf, doRawDefaultHash contents⟩
            { ptr with refNonce := zeroRefNonce }).1) }
        ptr.id (.fileBlock false contents es) hp := by
  unfold BlockCacheStandard.PutWithPrefetch
  rw [hids]

theorem put_transient_fileDirect_noids_eq (b : BlockCacheStandard) (ptr : BlockPointer)
    (tlf : Nat) (contents : List Nat) (es : Nat) (hp : Bool) (hids : b.ids = none) :
    b.PutWithPrefetch ptr tlf (.fileBlock false contents es) .transientEntry hp =
      b.putTransient ptr.id (.fileBlock false contents es) hp := by
  unfold BlockCacheStandard.PutWithPrefetch
  rw [hids]

theorem put_transient_fileInd_eq (b : BlockCacheStandard) (ptr : BlockPointer)
    (tlf : Nat) (contents : List Nat) (es : Nat) (hp : Bool) :
    b.PutWithPrefetch ptr tlf (.fileBlock true contents es) .transientEntry hp =
      b.putTransient ptr.id (.fileBlock true contents es) hp := by
  unfold BlockCacheStandard.PutWithPrefetch
  cases hids : b.ids with
  | none => rfl
  | some ids0 => rfl

theorem put_transient_dir_eq (b : BlockCacheStandard) (ptr : BlockPointer)
    (tlf : Nat) (es : Nat) (hp : Bool) :
    b.PutWithPrefetch ptr tlf (.dirBlock es) .transientEntry hp =
      b.putTransient ptr.id (.dirBlock es) hp := by
  unfold BlockCacheStandard.PutWithPrefetch
  cases hids : b.ids with
  | none => rfl
  | some ids0 => rfl

/-! ## The accounting invariant is preserved by every operation -/

theorem CacheInv_step (b : BlockCacheStandard) (op : CacheOp) (hInv : CacheInv b)
    (hstable : sizeStableB b op = true) : CacheInv (applyOp b op) := by
  cases op with
  | getOp ptr => exact CacheInv_get b ptr hInv
  | checkOp tlf isInd contents => exact CacheInv_check b tlf isInd contents hInv
  | deleteTransientOp ptr tlf => exact CacheInv_deleteTransient b ptr tlf hInv
  | deletePermanentOp id => exact CacheInv_deletePermanent b id hInv
  | deleteKnownPtrOp tlf isInd contents => exact CacheInv_deleteKnownPtr b tlf isInd contents hInv
  | setCapacityOp c => exact CacheInv_setCapacity b c hInv
  | putOp ptr tlf block lifetime hp =>
      cases block with
      | commonBlock es => exact hInv
      | otherBlock es => exact hInv
      | fileBlock isInd contents es =>
          cases lifetime with
          | noCacheEntry => exact hInv
          | transientEntry =>
              have hs : ∀ bc, transientLookup b ptr.id = some bc →
                  getCachedBlockSize (Block.fileBlock isInd contents es) =
                    getCachedBlockSize bc.block := by
                intro bc hbc
                simp only [sizeStableB, hbc] at hstable
                simpa using hstable
              cases isInd with
              | true =>
                  show CacheInv (b.PutWithPrefetch ptr tlf
                    (.fileBlock true contents es) .transientEntry hp).2
                  rw [put_transient_fileInd_eq]
                  exact CacheInv_putTransient b ptr.id _ hp hInv hs
              | false =>
                  show CacheInv (b.PutWithPrefetch ptr tlf
                    (.fileBlock false contents es) .transientEntry hp).2
                  cases hids : b.ids with
                  | none =>
                      rw [put_transient_fileDirect_noids_eq b ptr tlf contents es hp hids]
                      exact CacheInv_putTransient b ptr.id _ hp hInv hs
                  | some ids0 =>
                      rw [put_transient_fileDirect_eq b ptr tlf contents es hp ids0 hids]
                      exact CacheInv_putTransient _ ptr.id _ hp
                        (CacheInv_ids b _ hInv) hs
          | permanentEntry =>
              have hs : ∀ b0, lookupKey b.cleanPermanent ptr.id = some b0 →
                  getCachedBlockSize (Block.fileBlock isInd contents es) =
                    getCachedBlockSize b0 := by
                intro b0 hb0
                simp only [sizeStableB, hb0] at hstable
                simpa using hstable
              exact CacheInv_putPermanent b ptr.id _ hInv hs
      | dirBlock es =>
          cases lifetime with
          | noCacheEntry => exact hInv
          | transientEntry =>
              have hs : ∀ bc, transientLookup b ptr.id = some bc →
                  getCachedBlockSize (Block.dirBlock es) = getCachedBlockSize bc.block := by
                intro bc hbc
                simp only [sizeStableB, hbc] at hstable
                simpa using hstable
              show CacheInv (b.PutWithPrefetch ptr tlf (.dirBlock es) .transientEntry hp).2
              rw [put_transient_dir_eq]
              exact CacheInv_putTransient b ptr.id _ hp hInv hs
          | permanentEntry =>
              have hs : ∀ b0, lookupKey b.cleanPermanent ptr.id = some b0 →
                  getCachedBlockSize (Block.dirBlock es) = getCachedBlockSize b0 := by
                intro b0 hb0
                simp only [sizeStableB, hb0] at hstable
                simpa using hstable
              exact CacheInv_putPermanent b ptr.id _ hInv hs

theorem CacheInv_runTrace (ops : List CacheOp) (b : BlockCacheStandard) (hInv : CacheInv b)
    (hst : sizeStableTrace b ops = true) : CacheInv (runTrace b ops) := by
  induction ops generalizing b with
  | nil => exact hInv
  | cons op rest ih =>
      rw [sizeStableTrace, Bool.and_eq_true] at hst
      exact ih (applyOp b op) (CacheInv_step b op hInv hst.1) hst.2

theorem CacheInv_new (tcap : Int) (bcap : Nat) (h : 0 < tcap) :
    CacheInv (NewBlockCacheStandard tcap bcap) := by
  unfold NewBlockCacheStandard
  rw [if_pos h]
  refine ⟨_, rfl, ?_, ?_, ?_, ?_⟩
  · dsimp only
    omega
  · simp [keysNodup]
  · simp [keysNodup]
  · rfl

/-- Blocks accepted by the type guard of `PutWithPrefetch`. -/
def cacheableBlock : Block → Bool
  | .fileBlock _ _ _ => true
  | .dirBlock _ => true
  | .commonBlock _ => false
  | .otherBlock _ => false

theorem makeRoomForSize_none (b : BlockCacheStandard) (size : Nat)
    (lt : BlockCacheLifetime) (h : b.cleanTransient = none) :
    b.makeRoomForSize size lt = (false, b) := by
  unfold BlockCacheStandard.makeRoomForSize
  rw [h]

theorem LRU.add_cap {κ V : Type} [DecidableEq κ] (c : LRU κ V) (k : κ) (v : V) :
    ((c.add k v).1).cap = c.cap := by
  unfold LRU.add
  split
  · rfl
  · split
    · rfl
    · split
      · rfl
      · rfl

theorem putTransient_ids (b1 : BlockCacheStandard) (ptrId : Nat) (block : Block)
    (hp : Bool) : (b1.putTransient ptrId block hp).2.ids = b1.ids := by
  cases hct : b1.cleanTransient with
  | none =>
      unfold BlockCacheStandard.putTransient
      rw [hct]
  | some ct =>
      cases hl : lookupKey ct.entries ptrId with
      | some bc => rw [putTransient_hit b1 ct ptrId block hp bc hct hl]
      | none =>
          rw [putTransient_miss_eq b1 ct ptrId block hp hct hl]
          dsimp only
          obtain ⟨hfP, hfI, hfC, hfT⟩ :=
            makeRoomForSize_frame b1 ct (getCachedBlockSize block) .transientEntry hct
          by_cases hflag :
              (b1.makeRoomForSize (getCachedBlockSize block) .transientEntry).1 = true
          · rw [if_pos hflag, hfT]
            dsimp only
            cases ha : (LRU.add ⟨ct.cap, (evictUntilFits ct.entries b1.cleanTotalBytes
                (getCachedBlockSize block) b1.cleanBytesCapacity).1⟩ ptrId
                ⟨block, hp⟩).2 with
            | some e =>
                dsimp only
                unfold BlockCacheStandard.onEvict BlockCacheStandard.subtractBlockBytes
                dsimp only
                split
                · exact hfI
                · exact hfI
            | none =>
                dsimp only
                exact hfI
          · rw [if_neg hflag]
            exact hfI

theorem putTransient_perm (b1 : BlockCacheStandard) (ptrId : Nat) (block : Block)
    (hp : Bool) : (b1.putTransient ptrId block hp).2.cleanPermanent = b1.cleanPermanent := by
  cases hct : b1.cleanTransient with
  | none =>
      unfold BlockCacheStandard.putTransient
      rw [hct]
  | some ct =>
      cases hl : lookupKey ct.entries ptrId with
      | some bc => rw [putTransient_hit b1 ct ptrId block hp bc hct hl]
      | none =>
          rw [putTransient_miss_eq b1 ct ptrId block hp hct hl]
          dsimp only
          obtain ⟨hfP, hfI, hfC, hfT⟩ :=
            makeRoomForSize_frame b1 ct (getCachedBlockSize block) .transientEntry hct
          by_cases hflag :
              (b1.makeRoomForSize (getCachedBlockSize block) .transientEntry).1 = true
          · rw [if_pos hflag, hfT]
            dsimp only
            cases ha : (LRU.add ⟨ct.cap, (evictUntilFits ct.entries b1.cleanTotalBytes
                (getCachedBlockSize block) b1.cleanBytesCapacity).1⟩ ptrId
                ⟨block, hp⟩).2 with
            | some e =>
                dsimp only
                unfold BlockCacheStandard.onEvict BlockCacheStandard.subtractBlockBytes
                dsimp only
                split
                · exact hfP
                · exact hfP
            | none =>
                dsimp only
                exact hfP
          · rw [if_neg hflag]
            exact hfP

theorem putTransient_succeeds (b1 : BlockCacheStandard) (ct : LRU Nat blockContainer)
    (ptrId : Nat) (block : Block) (hp : Bool)
    (hct : b1.cleanTransient = some ct) (hnd : keysNodup ct.entries)
    (hbytes : b1.cleanTotalBytes = sumTransientBytes ct.entries)
    (hsize : getCachedBlockSize block ≤ b1.cleanBytesCapacity) :
    (b1.putTransient ptrId block hp).1 = none := by
  cases hl : lookupKey ct.entries ptrId with
  | some bc => rw [putTransient_hit b1 ct ptrId block hp bc hct hl]
  | none =>
      rw [putTransient_miss_eq b1 ct ptrId block hp hct hl]
      dsimp only
      have hfit : (evictUntilFits ct.entries b1.cleanTotalBytes (getCachedBlockSize block)
          b1.cleanBytesCapacity).2 + getCachedBlockSize block ≤ b1.cleanBytesCapacity :=
        evictUntilFits_fits ct.entries b1.cleanTotalBytes _ _ hbytes hsize
      obtain ⟨hflag, hbytes2⟩ :=
        makeRoomForSize_transient_true b1 ct (getCachedBlockSize block) hct hfit
      rw [if_pos hflag]
      obtain ⟨hfP, hfI, hfC, hfT⟩ :=
        makeRoomForSize_frame b1 ct (getCachedBlockSize block) .transientEntry hct
      rw [hfT]
      dsimp only
      cases ha : (LRU.add ⟨ct.cap, (evictUntilFits ct.entries b1.cleanTotalBytes
          (getCachedBlockSize block) b1.cleanBytesCapacity).1⟩ ptrId ⟨block, hp⟩).2 with
      | some e => rfl
      | none => rfl

theorem putTransient_success_lookup (b1 : BlockCacheStandard) (ct : LRU Nat blockContainer)
    (ptrId : Nat) (block : Block) (hp : Bool)
    (hct : b1.cleanTransient = some ct) (hcap : 0 < ct.cap)
    (hok : (b1.putTransient ptrId block hp).1 = none) :
    ∃ ct2 hp2, (b1.putTransient ptrId block hp).2.cleanTransient = some ct2 ∧
      ct2.cap = ct.cap ∧ lookupKey ct2.entries ptrId = some ⟨block, hp2⟩ := by
  cases hl : lookupKey ct.entries ptrId with
  | some bc =>
      rw [putTransient_hit b1 ct ptrId block hp bc hct hl]
      exact ⟨_, hp || bc.hasPrefetched, rfl, rfl, lookupKey_refresh_self _ _ _⟩
  | none =>
      rw [putTransient_miss_eq b1 ct ptrId block hp hct hl] at hok ⊢
      dsimp only at hok ⊢
      by_cases hflag :
          (b1.makeRoomForSize (getCachedBlockSize block) .transientEntry).1 = true
      · obtain ⟨hfP, hfI, hfC, hfT⟩ :=
          makeRoomForSize_frame b1 ct (getCachedBlockSize block) .transientEntry hct
        rw [if_pos hflag, hfT]
        dsimp only
        have hlk := LRU.add_lookup_self (⟨ct.cap, (evictUntilFits ct.entries
          b1.cleanTotalBytes (getCachedBlockSize block) b1.cleanBytesCapacity).1⟩ :
          LRU Nat blockContainer) ptrId ⟨block, hp⟩ hcap
        cases ha : (LRU.add ⟨ct.cap, (evictUntilFits ct.entries b1.cleanTotalBytes
            (getCachedBlockSize block) b1.cleanBytesCapacity).1⟩ ptrId ⟨block, hp⟩).2 with
        | some e =>
            dsimp only
            unfold BlockCacheStandard.onEvict BlockCacheStandard.subtractBlockBytes
            dsimp only
            split
            · exact ⟨_, hp, rfl, LRU.add_cap _ _ _, hlk⟩
            · exact ⟨_, hp, rfl, LRU.add_cap _ _ _, hlk⟩
        | none =>
            dsimp only
            exact ⟨_, hp, rfl, LRU.add_cap _ _ _, hlk⟩
      · rw [if_neg hflag] at hok
        simp at hok

/-! ## Claims -/

/-- A sequential workout trace used by witnesses: transient and permanent
puts, a recency-refreshing get, byte-driven eviction, deletes, and a
capacity change. -/
def witnessOps : List CacheOp :=
  [ .putOp ⟨1, 0⟩ 0 (.fileBlock false [1, 2, 3] 9) .transientEntry false
  , .putOp ⟨2, 0⟩ 0 (.dirBlock 4) .transientEntry true
  , .putOp ⟨3, 0⟩ 0 (.dirBlock 7) .permanentEntry true
  , .getOp ⟨1, 0⟩
  , .putOp ⟨4, 0⟩ 0 (.dirBlock 900) .transientEntry true
  , .deleteTransientOp ⟨2, 0⟩ 0
  , .deletePermanentOp 3
  , .setCapacityOp 5
  , .putOp ⟨5, 0⟩ 0 (.dirBlock 2) .transientEntry true
  , .putOp ⟨1, 0⟩ 0 (.fileBlock false [1, 2, 3] 9) .transientEntry true ]

/-- C1 (counterexample): in a cache constructed with `transientEntryCap = 0`,
a put with Permanent lifetime (a sequential put/delete trace of length one)
leaves the block resident in the permanent store while `cleanTotalBytes`
stays `0`, so `usedBytes` does not equal the sum of resident block sizes. -/
theorem C1_counterexample :
    lookupKey (runTrace (NewBlockCacheStandard 0 1000)
        [CacheOp.putOp ⟨1, 0⟩ 0 (Block.dirBlock 5) .permanentEntry true]).cleanPermanent 1 =
      some (Block.dirBlock 5) ∧
    (runTrace (NewBlockCacheStandard 0 1000)
        [CacheOp.putOp ⟨1, 0⟩ 0 (Block.dirBlock 5) .permanentEntry true]).cleanTotalBytes = 0 ∧
    residentBytes (runTrace (NewBlockCacheStandard 0 1000)
        [CacheOp.putOp ⟨1, 0⟩ 0 (Block.dirBlock 5) .permanentEntry true]) = 5 ∧
    ¬AccountingOK (runTrace (NewBlockCacheStandard 0 1000)
        [CacheOp.putOp ⟨1, 0⟩ 0 (Block.dirBlock 5) .permanentEntry true]) := by
  decide

/-- C1 (amended): for a cache constructed with positive `transientEntryCap`,
after every sequence of operations executed with no concurrency in which a
re-put never changes the size of the block stored under a pointer or ID,
the cache's `cleanTotalBytes` equals the sum of `getCachedBlockSize b` over
all blocks `b` resident in the transient store or the permanent store. -/
theorem C1_amended_invariant (tcap : Int) (bcap : Nat) (ops : List CacheOp)
    (htcap : 0 < tcap)
    (hst : sizeStableTrace (NewBlockCacheStandard tcap bcap) ops = true) :
    AccountingOK (runTrace (NewBlockCacheStandard tcap bcap) ops) := by
  obtain ⟨ct, hct, hcap, hndT, hndP, hacc⟩ :=
    CacheInv_runTrace ops _ (CacheInv_new tcap bcap htcap) hst
  exact hacc

set_option maxHeartbeats 2000000 in
/-- Witness for the amended C1 on a concrete eviction-heavy trace. -/
theorem C1_amended_invariant_witness :
    AccountingOK (runTrace (NewBlockCacheStandard 3 1000) witnessOps) :=
  C1_amended_invariant 3 1000 witnessOps (by decide) (by decide)

/-- C2 (counterexample): with permanent entries holding bytes, a Transient
put whose size is within the capacity set by `SetCleanBytesCapacity` still
fails: cap 100, a 500-byte permanent block is resident and charged, and a
10-byte transient put returns the capacity error even though `10 ≤ 100`
(best-effort eviction finds nothing to evict). -/
theorem C2_counterexample :
    getCachedBlockSize (Block.dirBlock 10) ≤ 100 ∧
    ((((NewBlockCacheStandard 10 100).PutWithPrefetch ⟨1, 0⟩ 0 (Block.dirBlock 500)
          .permanentEntry true).2.SetCleanBytesCapacity 100).PutWithPrefetch ⟨2, 0⟩ 0
        (Block.dirBlock 10) .transientEntry true).1 =
      some (CacheError.cachePutCacheFull 2) := by
  decide

/-- C2 (amended): after `SetCleanBytesCapacity c`, a Transient put of a
cacheable block with computed size at most `c` succeeds, provided the cache
has a transient store and all of `cleanTotalBytes` is attributable to
resident transient entries (no bytes charged for permanent entries), as in
any reachable permanent-free state. -/
theorem C2_amended_transient_put_fits (b : BlockCacheStandard)
    (ct : LRU Nat blockContainer) (c : Nat) (ptr : BlockPointer) (tlf : Nat)
    (block : Block) (hp : Bool)
    (hct : b.cleanTransient = some ct)
    (hnd : keysNodup ct.entries)
    (hbytes : b.cleanTotalBytes = sumTransientBytes ct.entries)
    (hvalid : cacheableBlock block = true)
    (hsize : getCachedBlockSize block ≤ c) :
    ((b.SetCleanBytesCapacity c).PutWithPrefetch ptr tlf block .transientEntry hp).1 =
      none := by
  cases block with
  | commonBlock es => simp [cacheableBlock] at hvalid
  | otherBlock es => simp [cacheableBlock] at hvalid
  | dirBlock es =>
      rw [put_transient_dir_eq]
      exact putTransient_succeeds _ ct ptr.id _ hp hct hnd hbytes hsize
  | fileBlock isInd contents es =>
      cases isInd with
      | true =>
          rw [put_transient_fileInd_eq]
          exact putTransient_succeeds _ ct ptr.id _ hp hct hnd hbytes hsize
      | false =>
          cases hids : (b.SetCleanBytesCapacity c).ids with
          | none =>
              rw [put_transient_fileDirect_noids_eq _ ptr tlf contents es hp hids]
              exact putTransient_succeeds _ ct ptr.id _ hp hct hnd hbytes hsize
          | some ids0 =>
              rw [put_transient_fileDirect_eq _ ptr tlf contents es hp ids0 hids]
              exact putTransient_succeeds _ ct ptr.id _ hp hct hnd hbytes hsize

/-- Witness for the amended C2: a transient put of a 20-byte block succeeds
under capacity 50 in a permanent-free cache. -/
theorem C2_amended_transient_put_fits_witness :
    (((NewBlockCacheStandard 10 100).SetCleanBytesCapacity 50).PutWithPrefetch ⟨1, 0⟩ 0
      (Block.dirBlock 20) .transientEntry true).1 = none :=
  C2_amended_transient_put_fits (NewBlockCacheStandard 10 100) ⟨10, []⟩ 50 ⟨1, 0⟩ 0
    (Block.dirBlock 20) true (by decide) (by decide) (by decide) (by decide) (by decide)

/-- C3 (counterexample): in a cache built with `transientEntryCap = 0` and
byte capacity 0, a Permanent put of a 5-byte block returns no error and the
block is resident, but the block does not fit (5 > 0) and its size is NOT
added to `usedBytes`: `makeRoomForSize` returns early without charging when
there is no transient store. -/
theorem C3_counterexample :
    ((NewBlockCacheStandard 0 0).PutWithPrefetch ⟨1, 0⟩ 0 (Block.dirBlock 5)
        .permanentEntry true).1 = none ∧
    lookupKey ((NewBlockCacheStandard 0 0).PutWithPrefetch ⟨1, 0⟩ 0 (Block.dirBlock 5)
        .permanentEntry true).2.cleanPermanent 1 = some (Block.dirBlock 5) ∧
    (NewBlockCacheStandard 0 0).cleanBytesCapacity < getCachedBlockSize (Block.dirBlock 5) ∧
    ¬(((NewBlockCacheStandard 0 0).PutWithPrefetch ⟨1, 0⟩ 0 (Block.dirBlock 5)
        .permanentEntry true).2.cleanTotalBytes =
      (NewBlockCacheStandard 0 0).cleanTotalBytes + getCachedBlockSize (Block.dirBlock 5)) := by
  decide

/-- C3 (amended): for a cache with a transient store, every Permanent put of
a cacheable (file or directory) block returns no error and leaves the block
resident in the permanent store; and when the ID was not already present,
the block's size is added to `usedBytes` on top of the post-eviction byte
count — whether or not the result fits under `capacityBytes`. -/
theorem C3_amended_permanent_put (b : BlockCacheStandard) (ct : LRU Nat blockContainer)
    (ptr : BlockPointer) (tlf : Nat) (block : Block) (hp : Bool)
    (hct : b.cleanTransient = some ct) (hvalid : cacheableBlock block = true) :
    (b.PutWithPrefetch ptr tlf block .permanentEntry hp).1 = none ∧
    lookupKey (b.PutWithPrefetch ptr tlf block .permanentEntry hp).2.cleanPermanent
      ptr.id = some block ∧
    (lookupKey b.cleanPermanent ptr.id = none →
      (b.PutWithPrefetch ptr tlf block .permanentEntry hp).2.cleanTotalBytes =
        (evictUntilFits ct.entries b.cleanTotalBytes (getCachedBlockSize block)
          b.cleanBytesCapacity).2 + getCachedBlockSize block) := by
  have hmain : ∀ blk : Block, (b.putPermanent ptr.id blk).1 = none ∧
      lookupKey (b.putPermanent ptr.id blk).2.cleanPermanent ptr.id = some blk ∧
      (lookupKey b.cleanPermanent ptr.id = none →
        (b.putPermanent ptr.id blk).2.cleanTotalBytes =
          (evictUntilFits ct.entries b.cleanTotalBytes (getCachedBlockSize blk)
            b.cleanBytesCapacity).2 + getCachedBlockSize blk) := by
    intro blk
    unfold BlockCacheStandard.putPermanent
    dsimp only
    cases hl : lookupKey b.cleanPermanent ptr.id with
    | some b0 =>
        rw [if_pos (show (some b0).isSome = true by rfl)]
        refine ⟨rfl, lookupKey_refresh_self _ _ _, ?_⟩
        intro hnone
        exact Option.noConfusion hnone
    | none =>
        rw [if_neg (by simp : ¬((Option.none : Option Block).isSome = true))]
        have hct1 : ({ b with cleanPermanent := eraseKey b.cleanPermanent ptr.id ++ [(ptr.id, blk)] } : BlockCacheStandard).cleanTransient = some ct := hct
        obtain ⟨hfP, hfI, hfC, hfT⟩ :=
          makeRoomForSize_frame _ ct (getCachedBlockSize blk) .permanentEntry hct1
        have hbytes := makeRoomForSize_bytes_perm _ ct (getCachedBlockSize blk) hct1
        dsimp only at hfP hbytes
        refine ⟨rfl, ?_, fun _ => hbytes⟩
        rw [hfP]
        exact lookupKey_refresh_self _ _ _
  cases block with
  | commonBlock es => simp [cacheableBlock] at hvalid
  | otherBlock es => simp [cacheableBlock] at hvalid
  | dirBlock es => exact hmain (Block.dirBlock es)
  | fileBlock isInd contents es => exact hmain (Block.fileBlock isInd contents es)

/-- Witness for the amended C3: a 5-byte block permanently inserted into an
empty cache with byte capacity 0 is resident, error-free, and still charged
(bytes go from 0 to 5 even though 5 > 0). -/
theorem C3_amended_permanent_put_witness :
    ((NewBlockCacheStandard 1 0).PutWithPrefetch ⟨1, 0⟩ 0 (Block.dirBlock 5)
        .permanentEntry true).1 = none ∧
    lookupKey ((NewBlockCacheStandard 1 0).PutWithPrefetch ⟨1, 0⟩ 0 (Block.dirBlock 5)
        .permanentEntry true).2.cleanPermanent 1 = some (Block.dirBlock 5) ∧
    ((NewBlockCacheStandard 1 0).PutWithPrefetch ⟨1, 0⟩ 0 (Block.dirBlock 5)
        .permanentEntry true).2.cleanTotalBytes = 5 := by
  obtain ⟨h1, h2, h3⟩ := C3_amended_permanent_put (NewBlockCacheStandard 1 0) ⟨1, []⟩
    ⟨1, 0⟩ 0 (Block.dirBlock 5) true (by decide) (by decide)
  exact ⟨h1, h2, h3 (by decide)⟩

/-- C4 (confirmed): `GetWithPrefetch` probes the transient store first (a
transient hit is returned even when the ID is also permanent), then the
permanent store; when the ID is in neither store the result is a
`NoSuchBlockError`; and every permanent hit reports `hasPrefetched = true`
with Permanent lifetime. -/
theorem C4_get_probes (b : BlockCacheStandard) (ptr : BlockPointer) :
    (∀ bc, transientLookup b ptr.id = some bc →
      (b.GetWithPrefetch ptr).1 =
        ⟨some bc.block, bc.hasPrefetched, .transientEntry, none⟩) ∧
    (∀ blk, transientLookup b ptr.id = none →
      lookupKey b.cleanPermanent ptr.id = some blk →
      (b.GetWithPrefetch ptr).1 = ⟨some blk, true, .permanentEntry, none⟩) ∧
    (transientLookup b ptr.id = none → lookupKey b.cleanPermanent ptr.id = none →
      (b.GetWithPrefetch ptr).1 =
        ⟨none, false, .noCacheEntry, some (.noSuchBlock ptr.id)⟩) := by
  unfold BlockCacheStandard.GetWithPrefetch
  refine ⟨?_, ?_, ?_⟩
  · intro bc hbc
    rw [transientLookup] at hbc
    cases hcb : b.cleanTransient with
    | none =>
        rw [hcb] at hbc
        exact Option.noConfusion hbc
    | some ct =>
        rw [hcb] at hbc
        dsimp only at hbc
        dsimp only
        rw [LRU.get_hit ct ptr.id bc hbc]
  · intro blk hbc hperm
    rw [transientLookup] at hbc
    cases hcb : b.cleanTransient with
    | none =>
        dsimp only
        rw [hperm]
    | some ct =>
        rw [hcb] at hbc
        dsimp only at hbc
        dsimp only
        rw [LRU.get_miss ct ptr.id hbc]
        dsimp only
        rw [hperm]
  · intro hbc hperm
    rw [transientLookup] at hbc
    cases hcb : b.cleanTransient with
    | none =>
        dsimp only
        rw [hperm]
    | some ct =>
        rw [hcb] at hbc
        dsimp only at hbc
        dsimp only
        rw [LRU.get_miss ct ptr.id hbc]
        dsimp only
        rw [hperm]

/-- Witness for C4 on a cache holding a transient entry at ID 1, a
permanent entry at ID 2, and nothing at ID 3. -/
theorem C4_get_probes_witness :
    ((runTrace (NewBlockCacheStandard 4 1000)
        [.putOp ⟨1, 0⟩ 0 (.dirBlock 5) .transientEntry true,
         .putOp ⟨2, 0⟩ 0 (.dirBlock 7) .permanentEntry true]).GetWithPrefetch ⟨1, 0⟩).1 =
      ⟨some (Block.dirBlock 5), true, .transientEntry, none⟩ ∧
    ((runTrace (NewBlockCacheStandard 4 1000)
        [.putOp ⟨1, 0⟩ 0 (.dirBlock 5) .transientEntry true,
         .putOp ⟨2, 0⟩ 0 (.dirBlock 7) .permanentEntry true]).GetWithPrefetch ⟨2, 0⟩).1 =
      ⟨some (Block.dirBlock 7), true, .permanentEntry, none⟩ ∧
    ((runTrace (NewBlockCacheStandard 4 1000)
        [.putOp ⟨1, 0⟩ 0 (.dirBlock 5) .transientEntry true,
         .putOp ⟨2, 0⟩ 0 (.dirBlock 7) .permanentEntry true]).GetWithPrefetch ⟨3, 0⟩).1 =
      ⟨none, false, .noCacheEntry, some (.noSuchBlock 3)⟩ :=
  ⟨(C4_get_probes _ _).1 ⟨Block.dirBlock 5, true⟩ (by decide),
   (C4_get_probes _ _).2.1 (Block.dirBlock 7) (by decide) (by decide),
   (C4_get_probes _ _).2.2 (by decide) (by decide)⟩

/-- C5 (confirmed): a successful re-put of a pointer already resident in the
transient store merges the incoming `hasPrefetched` flag with the stored one
by logical OR: the put returns no error and the entry afterwards holds
`hp || stored`; in particular a put with `hasPrefetched = false` after a put
with `hasPrefetched = true` leaves `hasPrefetched = true`. -/
theorem C5_or_merge (b : BlockCacheStandard) (ct : LRU Nat blockContainer)
    (ptr : BlockPointer) (tlf : Nat) (block : Block) (hp : Bool) (bc : blockContainer)
    (hct : b.cleanTransient = some ct) (hl : lookupKey ct.entries ptr.id = some bc)
    (hvalid : cacheableBlock block = true) :
    (b.PutWithPrefetch ptr tlf block .transientEntry hp).1 = none ∧
    transientLookup (b.PutWithPrefetch ptr tlf block .transientEntry hp).2 ptr.id =
      some ⟨block, hp || bc.hasPrefetched⟩ := by
  have hmain : ∀ (b1 : BlockCacheStandard), b1.cleanTransient = some ct →
      (b1.putTransient ptr.id block hp).1 = none ∧
      transientLookup (b1.putTransient ptr.id block hp).2 ptr.id =
        some ⟨block, hp || bc.hasPrefetched⟩ := by
    intro b1 hct1
    rw [putTransient_hit b1 ct ptr.id block hp bc hct1 hl]
    refine ⟨rfl, ?_⟩
    rw [transientLookup]
    dsimp only
    exact lookupKey_refresh_self _ _ _
  cases block with
  | commonBlock es => simp [cacheableBlock] at hvalid
  | otherBlock es => simp [cacheableBlock] at hvalid
  | dirBlock es =>
      rw [put_transient_dir_eq]
      exact hmain b hct
  | fileBlock isInd contents es =>
      cases isInd with
      | true =>
          rw [put_transient_fileInd_eq]
          exact hmain b hct
      | false =>
          cases hids : b.ids with
          | none =>
              rw [put_transient_fileDirect_noids_eq b ptr tlf contents es hp hids]
              exact hmain b hct
          | some ids0 =>
              rw [put_transient_fileDirect_eq b ptr tlf contents es hp ids0 hids]
              exact hmain _ hct

/-- Witness for C5: a put with `hasPrefetched = false` after a put with
`hasPrefetched = true` for the same pointer succeeds and leaves the entry
with `hasPrefetched = true`. -/
theorem C5_or_merge_witness :
    ((runTrace (NewBlockCacheStandard 10 1000)
        [.putOp ⟨1, 0⟩ 0 (.dirBlock 5) .transientEntry true]).PutWithPrefetch ⟨1, 0⟩ 0
        (Block.dirBlock 5) .transientEntry false).1 = none ∧
    transientLookup ((runTrace (NewBlockCacheStandard 10 1000)
        [.putOp ⟨1, 0⟩ 0 (.dirBlock 5) .transientEntry true]).PutWithPrefetch ⟨1, 0⟩ 0
        (Block.dirBlock 5) .transientEntry false).2 1 =
      some ⟨Block.dirBlock 5, true⟩ :=
  C5_or_merge _ ⟨10, [(1, ⟨Block.dirBlock 5, true⟩)]⟩ ⟨1, 0⟩ 0 (Block.dirBlock 5) false
    ⟨Block.dirBlock 5, true⟩ (by decide) (by decide) (by decide)

/-- C6 (confirmed): after a Transient put of a direct file block at pointer
`p` in folder `f`, `CheckForKnownPtr` on folder `f` with a direct file block
of the same plaintext contents returns `p` with its RefNonce zeroed — even
when the put itself failed or no transient store exists, the dedup-index
write has happened. -/
theorem C6_dedup_roundtrip (b : BlockCacheStandard)
    (ids0 : LRU idCacheKey BlockPointer) (ptr : BlockPointer) (tlf : Nat)
    (contents : List Nat) (es : Nat) (hp : Bool)
    (hids : b.ids = some ids0) (hcap : 0 < ids0.cap) :
    (((b.PutWithPrefetch ptr tlf (.fileBlock false contents es) .transientEntry
        hp).2).CheckForKnownPtr tlf false contents).1 =
      ({ ptr with refNonce := zeroRefNonce }, none) := by
  rw [put_transient_fileDirect_eq b ptr tlf contents es hp ids0 hids]
  have hids2 : (BlockCacheStandard.putTransient
      { b with ids := some ((ids0.add ⟨tlf, doRawDefaultHash contents⟩
          { ptr with refNonce := zeroRefNonce }).1) }
      ptr.id (.fileBlock false contents es) hp).2.ids =
      some ((ids0.add ⟨tlf, doRawDefaultHash contents⟩
        { ptr with refNonce := zeroRefNonce }).1) := by
    rw [putTransient_ids]
  unfold BlockCacheStandard.CheckForKnownPtr
  simp only [Bool.false_eq_true, if_false]
  rw [hids2]
  dsimp only
  have hlk : lookupKey ((ids0.add ⟨tlf, doRawDefaultHash contents⟩
      { ptr with refNonce := zeroRefNonce }).1).entries
      ⟨tlf, doRawDefaultHash contents⟩ = some { ptr with refNonce := zeroRefNonce } :=
    LRU.add_lookup_self ids0 _ _ hcap
  unfold LRU.get
  rw [hlk]

/-- Witness for C6: a 32-entry-capacity cache; a put of a direct file block
with contents `[170, 170]` at pointer (id 9, refnonce 4) makes the lookup
return pointer (id 9, refnonce 0). -/
theorem C6_dedup_roundtrip_witness :
    (((NewBlockCacheStandard 32 1000).PutWithPrefetch ⟨9, 4⟩ 6
        (.fileBlock false [170, 170] 8) .transientEntry false).2.CheckForKnownPtr 6
        false [170, 170]).1 = (⟨9, 0⟩, none) :=
  C6_dedup_roundtrip (NewBlockCacheStandard 32 1000) ⟨32, []⟩ ⟨9, 4⟩ 6 [170, 170] 8
    false (by decide) (by decide)

/-! ## Key-provenance helpers for the dedup index -/

theorem eraseKey_keys_subset {κ V : Type} [DecidableEq κ] (l : List (κ × V)) (k0 k : κ)
    (h : k ∈ (eraseKey l k0).map Prod.fst) : k ∈ l.map Prod.fst :=
  (List.Sublist.map Prod.fst (List.filter_sublist l)).subset h

theorem lookupKey_some_mem {κ V : Type} [DecidableEq κ] (l : List (κ × V)) (k : κ) (v : V)
    (h : lookupKey l k = some v) : k ∈ l.map Prod.fst := by
  by_contra h2
  rw [(lookupKey_none_iff l k).2 h2] at h
  exact Option.noConfusion h

theorem LRU.get_keys {κ V : Type} [DecidableEq κ] (c : LRU κ V) (k0 k : κ)
    (h : k ∈ ((c.get k0).2).entries.map Prod.fst) : k ∈ c.entries.map Prod.fst := by
  cases hl : lookupKey c.entries k0 with
  | none =>
      rw [LRU.get_miss c k0 hl] at h
      exact h
  | some v =>
      rw [LRU.get_hit c k0 v hl] at h
      dsimp only at h
      rw [List.map_append, List.mem_append] at h
      rcases h with h | h
      · exact eraseKey_keys_subset _ _ _ h
      · simp at h
        subst h
        exact lookupKey_some_mem _ _ _ hl

theorem LRU.removeKey_keys {κ V : Type} [DecidableEq κ] (c : LRU κ V) (k0 k : κ)
    (h : k ∈ ((c.removeKey k0).2).entries.map Prod.fst) : k ∈ c.entries.map Prod.fst := by
  unfold LRU.removeKey at h
  exact eraseKey_keys_subset _ _ _ h

theorem LRU.add_keys {κ V : Type} [DecidableEq κ] (c : LRU κ V) (k0 : κ) (v : V) (k : κ)
    (h : k ∈ ((c.add k0 v).1).entries.map Prod.fst) :
    k = k0 ∨ k ∈ c.entries.map Prod.fst := by
  unfold LRU.add at h
  by_cases hin : (lookupKey c.entries k0).isSome
  · rw [if_pos hin] at h
    dsimp only at h
    rw [List.map_append, List.mem_append] at h
    rcases h with h | h
    · exact Or.inr (eraseKey_keys_subset _ _ _ h)
    · simp at h
      exact Or.inl h
  · rw [if_neg hin] at h
    cases hc : c.entries with
    | nil =>
        rw [hc] at h
        dsimp only [List.nil_append] at h
        by_cases hlen : ([(k0, v)] : List (κ × V)).length > c.cap
        · rw [if_pos hlen] at h
          simp at h
        · rw [if_neg hlen] at h
          simp at h
          exact Or.inl h
    | cons a rest =>
        rw [hc] at h
        dsimp only [List.cons_append] at h
        by_cases hlen : (a :: (rest ++ [(k0, v)])).length > c.cap
        · rw [if_pos hlen] at h
          dsimp only at h
          rw [List.map_append, List.mem_append] at h
          rcases h with h | h
          · right
            rw [List.map_cons, List.mem_cons]
            exact Or.inr h
          · simp at h
            exact Or.inl h
        · rw [if_neg hlen] at h
          dsimp only at h
          rw [List.map_cons, List.mem_cons] at h
          rcases h with h | h
          · right
            rw [List.map_cons, List.mem_cons]
            exact Or.inl h
          · rw [List.map_append, List.mem_append] at h
            rcases h with h | h
            · right
              rw [List.map_cons, List.mem_cons]
              exact Or.inr h
            · simp at h
              exact Or.inl h

theorem GetWithPrefetch_ids (b : BlockCacheStandard) (ptr : BlockPointer) :
    (b.GetWithPrefetch ptr).2.ids = b.ids := by
  unfold BlockCacheStandard.GetWithPrefetch
  cases hcb : b.cleanTransient with
  | none =>
      dsimp only
      cases hp : lookupKey b.cleanPermanent ptr.id <;> rfl
  | some ct =>
      dsimp only
      cases hl : lookupKey ct.entries ptr.id with
      | some bc => rw [LRU.get_hit ct ptr.id bc hl]
      | none =>
          rw [LRU.get_miss ct ptr.id hl]
          dsimp only
          cases hp : lookupKey b.cleanPermanent ptr.id <;> rfl

theorem putPermanent_ids (b : BlockCacheStandard) (ptrId : Nat) (block : Block) :
    (b.putPermanent ptrId block).2.ids = b.ids := by
  unfold BlockCacheStandard.putPermanent
  dsimp only
  split
  · rfl
  · cases hctb : b.cleanTransient with
    | none => rw [makeRoomForSize_none _ _ _ rfl]
    | some ct =>
        exact (makeRoomForSize_frame _ ct (getCachedBlockSize block) .permanentEntry rfl).2.1

theorem DeletePermanent_ids (b : BlockCacheStandard) (id : Nat) :
    (b.DeletePermanent id).2.ids = b.ids := by
  unfold BlockCacheStandard.DeletePermanent
  cases hl : lookupKey b.cleanPermanent id with
  | none => rfl
  | some blk =>
      dsimp only
      unfold BlockCacheStandard.subtractBlockBytes
      dsimp only
      split
      · rfl
      · rfl

theorem CheckForKnownPtr_keys (b : BlockCacheStandard) (tlf : Nat) (isInd : Bool)
    (contents : List Nat) (k : idCacheKey)
    (h : k ∈ idsKeys (b.CheckForKnownPtr tlf isInd contents).2) : k ∈ idsKeys b := by
  unfold BlockCacheStandard.CheckForKnownPtr at h
  cases isInd with
  | true => exact h
  | false =>
      cases hids : b.ids with
      | none =>
          simp only [Bool.false_eq_true, if_false, hids] at h
          exact h
      | some ids0 =>
          simp only [Bool.false_eq_true, if_false, hids] at h
          cases hg : ids0.get ⟨tlf, doRawDefaultHash contents⟩ with
          | mk fst snd =>
              rw [hg] at h
              have hsub : k ∈ snd.entries.map Prod.fst → k ∈ ids0.entries.map Prod.fst := by
                intro hm
                apply LRU.get_keys ids0 ⟨tlf, doRawDefaultHash contents⟩ k
                rw [hg]
                exact hm
              rw [idsKeys, hids]
              cases fst with
              | some ptr =>
                  dsimp only at h
                  rw [idsKeys] at h
                  dsimp only at h
                  exact hsub h
              | none =>
                  dsimp only at h
                  rw [idsKeys] at h
                  dsimp only at h
                  exact hsub h

theorem subtractBlockBytes_ids (b : BlockCacheStandard) (blk : Block) :
    (b.subtractBlockBytes blk).ids = b.ids := by
  unfold BlockCacheStandard.subtractBlockBytes
  dsimp only
  split
  · rfl
  · rfl

theorem onEvict_keys (x : BlockCacheStandard) (bc : blockContainer) (k : idCacheKey)
    (h : k ∈ idsKeys (x.onEvict bc)) : k ∈ idsKeys x := by
  unfold idsKeys at h ⊢
  rw [BlockCacheStandard.onEvict, subtractBlockBytes_ids] at h
  exact h

theorem DeleteTransient_keys (b : BlockCacheStandard) (ptr : BlockPointer) (tlf : Nat)
    (k : idCacheKey) (h : k ∈ idsKeys (b.DeleteTransient ptr tlf).2) : k ∈ idsKeys b := by
  unfold BlockCacheStandard.DeleteTransient at h
  cases hct : b.cleanTransient with
  | none =>
      rw [hct] at h
      exact h
  | some ct =>
      rw [hct] at h
      dsimp only at h
      cases hl : lookupKey ct.entries ptr.id with
      | none =>
          rw [LRU.get_miss ct ptr.id hl] at h
          exact h
      | some bc =>
          rw [LRU.get_hit ct ptr.id bc hl] at h
          dsimp only at h
          have hrk : LRU.removeKey
              (⟨ct.cap, eraseKey ct.entries ptr.id ++ [(ptr.id, bc)]⟩ : LRU Nat blockContainer)
              ptr.id = (some bc, ⟨ct.cap, eraseKey ct.entries ptr.id⟩) := by
            unfold LRU.removeKey
            dsimp only
            rw [lookupKey_refresh_self, eraseKey_refresh]
          cases hids : b.ids with
          | none =>
              cases hblk : bc.block with
              | fileBlock isInd contents es =>
                  cases isInd with
                  | false =>
                      rw [hblk, hids] at h
                      dsimp only at h
                      rw [hrk] at h
                      dsimp only at h
                      have h2 := onEvict_keys _ _ _ h
                      simp [idsKeys] at h2
                  | true =>
                      rw [hblk, hids] at h
                      dsimp only at h
                      rw [hrk] at h
                      dsimp only at h
                      have h2 := onEvict_keys _ _ _ h
                      simp [idsKeys] at h2
              | dirBlock es =>
                  rw [hblk, hids] at h
                  dsimp only at h
                  rw [hrk] at h
                  dsimp only at h
                  have h2 := onEvict_keys _ _ _ h
                  simp [idsKeys] at h2
              | commonBlock es =>
                  rw [hblk, hids] at h
                  dsimp only at h
                  rw [hrk] at h
                  dsimp only at h
                  have h2 := onEvict_keys _ _ _ h
                  simp [idsKeys] at h2
              | otherBlock es =>
                  rw [hblk, hids] at h
                  dsimp only at h
                  rw [hrk] at h
                  dsimp only at h
                  have h2 := onEvict_keys _ _ _ h
                  simp [idsKeys] at h2
          | some ids0 =>
              cases hblk : bc.block with
              | fileBlock isInd contents es =>
                  cases isInd with
                  | false =>
                      rw [hblk, hids] at h
                      dsimp only at h
                      rw [hrk] at h
                      dsimp only at h
                      have h2 := onEvict_keys _ _ _ h
                      rw [idsKeys] at h2
                      dsimp only at h2
                      rw [idsKeys, hids]
                      exact LRU.removeKey_keys ids0 _ k h2
                  | true =>
                      rw [hblk, hids] at h
                      dsimp only at h
                      rw [hrk] at h
                      dsimp only at h
                      have h2 := onEvict_keys _ _ _ h
                      rw [idsKeys] at h2
                      dsimp only at h2
                      rw [idsKeys, hids]
                      exact h2
              | dirBlock es =>
                  rw [hblk, hids] at h
                  dsimp only at h
                  rw [hrk] at h
                  dsimp only at h
                  have h2 := onEvict_keys _ _ _ h
                  rw [idsKeys] at h2
                  dsimp only at h2
                  rw [idsKeys, hids]
                  exact h2
              | commonBlock es =>
                  rw [hblk, hids] at h
                  dsimp only at h
                  rw [hrk] at h
                  dsimp only at h
                  have h2 := onEvict_keys _ _ _ h
                  rw [idsKeys] at h2
                  dsimp only at h2
                  rw [idsKeys, hids]
                  exact h2
              | otherBlock es =>
                  rw [hblk, hids] at h
                  dsimp only at h
                  rw [hrk] at h
                  dsimp only at h
                  have h2 := onEvict_keys _ _ _ h
                  rw [idsKeys] at h2
                  dsimp only at h2
                  rw [idsKeys, hids]
                  exact h2

theorem DeleteKnownPtr_keys (b : BlockCacheStandard) (tlf : Nat) (isInd : Bool)
    (contents : List Nat) (k : idCacheKey)
    (h : k ∈ idsKeys (b.DeleteKnownPtr tlf isInd contents).2) : k ∈ idsKeys b := by
  unfold BlockCacheStandard.DeleteKnownPtr at h
  cases isInd with
  | true => exact h
  | false =>
      cases hids : b.ids with
      | none =>
          simp only [Bool.false_eq_true, if_false, hids] at h
          exact h
      | some ids0 =>
          simp only [Bool.false_eq_true, if_false, hids] at h
          rw [idsKeys] at h
          dsimp only at h
          rw [idsKeys, hids]
          exact LRU.removeKey_keys ids0 _ k h

/-- The operation that can create a dedup-index entry for key `k`: a
Transient put of a direct file block whose folder and plaintext hash match
`k` (whether or not the block became resident). -/
def opRecordsKey (op : CacheOp) (k : idCacheKey) : Prop :=
  ∃ ptr hp contents es,
    op = CacheOp.putOp ptr k.tlf (Block.fileBlock false contents es)
      .transientEntry hp ∧ doRawDefaultHash contents = k.plaintextHash

theorem idsKeys_step (b : BlockCacheStandard) (op : CacheOp) (k : idCacheKey)
    (h : k ∈ idsKeys (applyOp b op)) : k ∈ idsKeys b ∨ opRecordsKey op k := by
  cases op with
  | getOp ptr =>
      left
      have h2 : k ∈ idsKeys ((b.GetWithPrefetch ptr).2) := h
      unfold idsKeys at h2 ⊢
      rw [GetWithPrefetch_ids] at h2
      exact h2
  | checkOp tlf isInd contents => exact Or.inl (CheckForKnownPtr_keys b tlf isInd contents k h)
  | deleteTransientOp ptr tlf => exact Or.inl (DeleteTransient_keys b ptr tlf k h)
  | deletePermanentOp id =>
      left
      have h2 : k ∈ idsKeys ((b.DeletePermanent id).2) := h
      unfold idsKeys at h2 ⊢
      rw [DeletePermanent_ids] at h2
      exact h2
  | deleteKnownPtrOp tlf isInd contents => exact Or.inl (DeleteKnownPtr_keys b tlf isInd contents k h)
  | setCapacityOp c => exact Or.inl h
  | putOp ptr tlf block lifetime hp =>
      cases block with
      | commonBlock es => exact Or.inl h
      | otherBlock es => exact Or.inl h
      | dirBlock es =>
          cases lifetime with
          | noCacheEntry => exact Or.inl h
          | permanentEntry =>
              left
              have h2 : k ∈ idsKeys ((b.putPermanent ptr.id (Block.dirBlock es)).2) := h
              unfold idsKeys at h2 ⊢
              rw [putPermanent_ids] at h2
              exact h2
          | transientEntry =>
              left
              have h2 : k ∈ idsKeys ((b.PutWithPrefetch ptr tlf (.dirBlock es)
                  .transientEntry hp).2) := h
              rw [put_transient_dir_eq] at h2
              unfold idsKeys at h2 ⊢
              rw [putTransient_ids] at h2
              exact h2
      | fileBlock isInd contents es =>
          cases lifetime with
          | noCacheEntry => exact Or.inl h
          | permanentEntry =>
              left
              have h2 : k ∈ idsKeys
                  ((b.putPermanent ptr.id (Block.fileBlock isInd contents es)).2) := h
              unfold idsKeys at h2 ⊢
              rw [putPermanent_ids] at h2
              exact h2
          | transientEntry =>
              cases isInd with
              | true =>
                  left
                  have h2 : k ∈ idsKeys ((b.PutWithPrefetch ptr tlf
                      (.fileBlock true contents es) .transientEntry hp).2) := h
                  rw [put_transient_fileInd_eq] at h2
                  unfold idsKeys at h2 ⊢
                  rw [putTransient_ids] at h2
                  exact h2
              | false =>
                  cases hids : b.ids with
                  | none =>
                      left
                      have h2 : k ∈ idsKeys ((b.PutWithPrefetch ptr tlf
                          (.fileBlock false contents es) .transientEntry hp).2) := h
                      rw [put_transient_fileDirect_noids_eq b ptr tlf contents es hp hids]
                        at h2
                      unfold idsKeys at h2 ⊢
                      rw [putTransient_ids] at h2
                      exact h2
                  | some ids0 =>
                      have h2 : k ∈ idsKeys ((b.PutWithPrefetch ptr tlf
                          (.fileBlock false contents es) .transientEntry hp).2) := h
                      rw [put_transient_fileDirect_eq b ptr tlf contents es hp ids0 hids]
                        at h2
                      unfold idsKeys at h2
                      rw [putTransient_ids] at h2
                      dsimp only at h2
                      rcases LRU.add_keys ids0 ⟨tlf, doRawDefaultHash contents⟩
                          { ptr with refNonce := zeroRefNonce } k h2 with hk | hk
                      · right
                        subst hk
                        exact ⟨ptr, hp, contents, es, rfl, rfl⟩
                      · left
                        rw [idsKeys, hids]
                        exact hk

theorem idsKeys_trace (ops : List CacheOp) (b : BlockCacheStandard) (k : idCacheKey)
    (h : k ∈ idsKeys (runTrace b ops)) :
    k ∈ idsKeys b ∨ ∃ op ∈ ops, opRecordsKey op k := by
  induction ops generalizing b with
  | nil => exact Or.inl h
  | cons op rest ih =>
      rcases ih (applyOp b op) h with h2 | ⟨op2, hmem, hrec⟩
      · rcases idsKeys_step b op k h2 with h3 | h3
        · exact Or.inl h3
        · exact Or.inr ⟨op, List.mem_cons_self op rest, h3⟩
      · exact Or.inr ⟨op2, List.mem_cons_of_mem op hmem, hrec⟩

/-- C7 (counterexample): a Transient put of a direct file block that fails
with the capacity error (byte capacity 0) still leaves a dedup-index entry,
although the block never became resident in the transient store at any
point of the trace (the transient key set is empty in every state). -/
theorem C7_counterexample :
    ((NewBlockCacheStandard 1 0).PutWithPrefetch ⟨1, 7⟩ 3 (.fileBlock false [5] 99)
        .transientEntry true).1 = some (CacheError.cachePutCacheFull 1) ∧
    idsLookup (runTrace (NewBlockCacheStandard 1 0)
        [.putOp ⟨1, 7⟩ 3 (.fileBlock false [5] 99) .transientEntry true])
      ⟨3, doRawDefaultHash [5]⟩ = some ⟨1, 0⟩ ∧
    (∀ s ∈ statesOf (NewBlockCacheStandard 1 0)
        [.putOp ⟨1, 7⟩ 3 (.fileBlock false [5] 99) .transientEntry true],
      transientKeys s = []) := by
  decide

/-- C7 (amended): at every state reachable from a fresh cache, the dedup
index contains an entry only for keys that were the subject of a Transient
put of a direct file block with matching folder and plaintext hash — such a
put may have failed with a capacity error without making the block
resident. -/
theorem C7_amended_index_provenance (tcap : Int) (bcap : Nat) (ops : List CacheOp)
    (k : idCacheKey)
    (hk : k ∈ idsKeys (runTrace (NewBlockCacheStandard tcap bcap) ops)) :
    ∃ op ∈ ops, opRecordsKey op k := by
  rcases idsKeys_trace ops (NewBlockCacheStandard tcap bcap) k hk with h | h
  · exfalso
    unfold NewBlockCacheStandard idsKeys at h
    by_cases htc : (0 : Int) < tcap
    · rw [if_pos htc] at h
      simp at h
    · rw [if_neg htc] at h
      simp at h
  · exact h

/-- Witness for the amended C7: the single failing put of the counterexample
trace is the operation that recorded the surviving index key. -/
theorem C7_amended_index_provenance_witness :
    ∃ op ∈ [CacheOp.putOp ⟨1, 7⟩ 3 (Block.fileBlock false [5] 99)
      .transientEntry true], opRecordsKey op ⟨3, doRawDefaultHash [5]⟩ :=
  C7_amended_index_provenance 1 0
    [CacheOp.putOp ⟨1, 7⟩ 3 (Block.fileBlock false [5] 99) .transientEntry true]
    ⟨3, doRawDefaultHash [5]⟩ (by decide)

theorem GetWithPrefetch_miss_err (bx : BlockCacheStandard) (ptr : BlockPointer)
    (hT : transientLookup bx ptr.id = none)
    (hP : lookupKey bx.cleanPermanent ptr.id = none) :
    (bx.GetWithPrefetch ptr).1.err = some (.noSuchBlock ptr.id) := by
  unfold BlockCacheStandard.GetWithPrefetch
  rw [transientLookup] at hT
  cases hcb : bx.cleanTransient with
  | none =>
      dsimp only
      rw [hP]
  | some ct =>
      rw [hcb] at hT
      dsimp only at hT
      dsimp only
      rw [LRU.get_miss ct ptr.id hT]
      dsimp only
      rw [hP]

theorem CheckForKnownPtr_miss (bx : BlockCacheStandard) (tlf : Nat) (contents : List Nat)
    (h : idsLookup bx ⟨tlf, doRawDefaultHash contents⟩ = none) :
    (bx.CheckForKnownPtr tlf false contents).1 = (⟨0, 0⟩, none) := by
  unfold BlockCacheStandard.CheckForKnownPtr
  simp only [Bool.false_eq_true, if_false]
  rw [idsLookup] at h
  cases hids : bx.ids with
  | none => rfl
  | some ids0 =>
      rw [hids] at h
      dsimp only at h
      dsimp only
      rw [LRU.get_miss ids0 _ h]

theorem deleteTransient_direct_removes (bx : BlockCacheStandard)
    (ctx : LRU Nat blockContainer) (ptr : BlockPointer) (tlf : Nat)
    (contents : List Nat) (es : Nat) (hp2 : Bool)
    (hct : bx.cleanTransient = some ctx)
    (hl : lookupKey ctx.entries ptr.id = some ⟨Block.fileBlock false contents es, hp2⟩) :
    transientLookup (bx.DeleteTransient ptr tlf).2 ptr.id = none ∧
    idsLookup (bx.DeleteTransient ptr tlf).2 ⟨tlf, doRawDefaultHash contents⟩ = none ∧
    (bx.DeleteTransient ptr tlf).2.cleanPermanent = bx.cleanPermanent := by
  unfold BlockCacheStandard.DeleteTransient
  rw [hct]
  dsimp only
  rw [LRU.get_hit ctx ptr.id _ hl]
  dsimp only
  have hrk : LRU.removeKey
      (⟨ctx.cap, eraseKey ctx.entries ptr.id ++
        [(ptr.id, (⟨Block.fileBlock false contents es, hp2⟩ : blockContainer))]⟩ :
        LRU Nat blockContainer) ptr.id =
      (some ⟨Block.fileBlock false contents es, hp2⟩,
        ⟨ctx.cap, eraseKey ctx.entries ptr.id⟩) := by
    unfold LRU.removeKey
    dsimp only
    rw [lookupKey_refresh_self, eraseKey_refresh]
  cases hids : bx.ids with
  | none =>
      dsimp only
      rw [hrk]
      dsimp only
      unfold BlockCacheStandard.onEvict BlockCacheStandard.subtractBlockBytes
      dsimp only
      split
      · exact ⟨lookupKey_eraseKey_self _ _, rfl, rfl⟩
      · exact ⟨lookupKey_eraseKey_self _ _, rfl, rfl⟩
  | some ids0 =>
      dsimp only
      rw [hrk]
      dsimp only
      unfold BlockCacheStandard.onEvict BlockCacheStandard.subtractBlockBytes
      dsimp only
      split
      · exact ⟨lookupKey_eraseKey_self _ _, lookupKey_eraseKey_self _ _, rfl⟩
      · exact ⟨lookupKey_eraseKey_self _ _, lookupKey_eraseKey_self _ _, rfl⟩

/-- C8 (confirmed): after a successful Transient put of a direct file block
and a `DeleteTransient` for the same pointer and folder, `Get` reports
`NoSuchBlockError` (provided the ID is not also in the permanent store) and
the dedup lookup for the block's contents is absent: `DeleteTransient`
removes both the transient entry and the dedup-index entry. -/
theorem C8_delete_roundtrip (b : BlockCacheStandard) (ct : LRU Nat blockContainer)
    (ptr : BlockPointer) (tlf : Nat) (contents : List Nat) (es : Nat) (hp : Bool)
    (hct : b.cleanTransient = some ct) (hcap : 0 < ct.cap)
    (hperm : lookupKey b.cleanPermanent ptr.id = none)
    (hok : (b.PutWithPrefetch ptr tlf (.fileBlock false contents es)
      .transientEntry hp).1 = none) :
    ((((b.PutWithPrefetch ptr tlf (.fileBlock false contents es) .transientEntry
        hp).2.DeleteTransient ptr tlf).2.Get ptr).1).2 = some (.noSuchBlock ptr.id) ∧
    idsLookup ((b.PutWithPrefetch ptr tlf (.fileBlock false contents es) .transientEntry
        hp).2.DeleteTransient ptr tlf).2 ⟨tlf, doRawDefaultHash contents⟩ = none ∧
    (((b.PutWithPrefetch ptr tlf (.fileBlock false contents es) .transientEntry
        hp).2.DeleteTransient ptr tlf).2.CheckForKnownPtr tlf false contents).1 =
      (⟨0, 0⟩, none) := by
  have hmain : ∀ (b1 : BlockCacheStandard), b1.cleanTransient = some ct →
      b1.cleanPermanent = b.cleanPermanent →
      (b1.putTransient ptr.id (.fileBlock false contents es) hp).1 = none →
      ((((b1.putTransient ptr.id (.fileBlock false contents es) hp).2.DeleteTransient
          ptr tlf).2.Get ptr).1).2 = some (.noSuchBlock ptr.id) ∧
      idsLookup ((b1.putTransient ptr.id (.fileBlock false contents es)
          hp).2.DeleteTransient ptr tlf).2 ⟨tlf, doRawDefaultHash contents⟩ = none ∧
      (((b1.putTransient ptr.id (.fileBlock false contents es) hp).2.DeleteTransient
          ptr tlf).2.CheckForKnownPtr tlf false contents).1 = (⟨0, 0⟩, none) := by
    intro b1 hct1 hperm1 hok1
    obtain ⟨ct2, hp2, hct2, hcap2, hl2⟩ :=
      putTransient_success_lookup b1 ct ptr.id (.fileBlock false contents es) hp
        hct1 hcap hok1
    obtain ⟨hT, hI, hP⟩ :=
      deleteTransient_direct_removes _ ct2 ptr tlf contents es hp2 hct2 hl2
    refine ⟨?_, hI, CheckForKnownPtr_miss _ tlf contents hI⟩
    have hPb : ((b1.putTransient ptr.id (.fileBlock false contents es)
        hp).2.DeleteTransient ptr tlf).2.cleanPermanent = b.cleanPermanent := by
      rw [hP, putTransient_perm, hperm1]
    exact GetWithPrefetch_miss_err _ ptr hT (by rw [hPb]; exact hperm)
  cases hids : b.ids with
  | none =>
      rw [put_transient_fileDirect_noids_eq b ptr tlf contents es hp hids] at hok ⊢
      exact hmain b hct rfl hok
  | some ids0 =>
      rw [put_transient_fileDirect_eq b ptr tlf contents es hp ids0 hids] at hok ⊢
      exact hmain _ hct rfl hok

/-- Witness for C8 on a concrete put-then-delete sequence. -/
theorem C8_delete_roundtrip_witness :
    ((((NewBlockCacheStandard 8 1000).PutWithPrefetch ⟨2, 3⟩ 5
        (.fileBlock false [7, 8] 3) .transientEntry true).2.DeleteTransient
        ⟨2, 3⟩ 5).2.Get ⟨2, 3⟩).1.2 = some (CacheError.noSuchBlock 2) ∧
    idsLookup (((NewBlockCacheStandard 8 1000).PutWithPrefetch ⟨2, 3⟩ 5
        (.fileBlock false [7, 8] 3) .transientEntry true).2.DeleteTransient
        ⟨2, 3⟩ 5).2 ⟨5, doRawDefaultHash [7, 8]⟩ = none ∧
    ((((NewBlockCacheStandard 8 1000).PutWithPrefetch ⟨2, 3⟩ 5
        (.fileBlock false [7, 8] 3) .transientEntry true).2.DeleteTransient
        ⟨2, 3⟩ 5).2.CheckForKnownPtr 5 false [7, 8]).1 = (⟨0, 0⟩, none) :=
  C8_delete_roundtrip (NewBlockCacheStandard 8 1000) ⟨8, []⟩ ⟨2, 3⟩ 5 [7, 8] 3 true
    (by decide) (by decide) (by decide) (by decide)

/-- C9 (counterexample): re-putting a different-sized block under the same
ID (charged 10, overwritten by a 20-byte block without a new charge) makes
`DeletePermanent` decrease `usedBytes` by 10, not by the removed block's
computed size 20 — the debit saturates at zero. -/
theorem C9_counterexample :
    lookupKey (runTrace (NewBlockCacheStandard 1 1000)
        [.putOp ⟨1, 0⟩ 0 (.dirBlock 10) .permanentEntry true,
         .putOp ⟨1, 0⟩ 0 (.dirBlock 20) .permanentEntry true]).cleanPermanent 1 =
      some (Block.dirBlock 20) ∧
    (runTrace (NewBlockCacheStandard 1 1000)
        [.putOp ⟨1, 0⟩ 0 (.dirBlock 10) .permanentEntry true,
         .putOp ⟨1, 0⟩ 0 (.dirBlock 20) .permanentEntry true]).cleanTotalBytes = 10 ∧
    ((runTrace (NewBlockCacheStandard 1 1000)
        [.putOp ⟨1, 0⟩ 0 (.dirBlock 10) .permanentEntry true,
         .putOp ⟨1, 0⟩ 0 (.dirBlock 20) .permanentEntry true]).DeletePermanent
        1).2.cleanTotalBytes = 0 ∧
    ¬((runTrace (NewBlockCacheStandard 1 1000)
        [.putOp ⟨1, 0⟩ 0 (.dirBlock 10) .permanentEntry true,
         .putOp ⟨1, 0⟩ 0 (.dirBlock 20) .permanentEntry true]).cleanTotalBytes =
      ((runTrace (NewBlockCacheStandard 1 1000)
        [.putOp ⟨1, 0⟩ 0 (.dirBlock 10) .permanentEntry true,
         .putOp ⟨1, 0⟩ 0 (.dirBlock 20) .permanentEntry true]).DeletePermanent
        1).2.cleanTotalBytes + getCachedBlockSize (Block.dirBlock 20)) := by
  decide

/-- C9 (amended): for every ID resident in the permanent store,
`DeletePermanent` returns no error, leaves the ID absent, and debits
`usedBytes` by the removed block's computed size saturating at zero: the
decrease equals the size exactly whenever `usedBytes` is at least the size,
and `usedBytes` clamps to `0` otherwise. -/
theorem C9_amended_delete_permanent (b : BlockCacheStandard) (id : Nat) (blk : Block)
    (hl : lookupKey b.cleanPermanent id = some blk) :
    (b.DeletePermanent id).1 = none ∧
    lookupKey (b.DeletePermanent id).2.cleanPermanent id = none ∧
    (getCachedBlockSize blk ≤ b.cleanTotalBytes →
      (b.DeletePermanent id).2.cleanTotalBytes + getCachedBlockSize blk =
        b.cleanTotalBytes) ∧
    (b.cleanTotalBytes < getCachedBlockSize blk →
      (b.DeletePermanent id).2.cleanTotalBytes = 0) := by
  unfold BlockCacheStandard.DeletePermanent
  rw [hl]
  dsimp only
  unfold BlockCacheStandard.subtractBlockBytes
  dsimp only
  by_cases hge : b.cleanTotalBytes ≥ getCachedBlockSize blk
  · rw [if_pos hge]
    refine ⟨rfl, lookupKey_eraseKey_self _ _, fun _ => by dsimp only; omega, fun hlt => by dsimp only; omega⟩
  · rw [if_neg hge]
    refine ⟨rfl, lookupKey_eraseKey_self _ _, fun hle => by dsimp only; omega, fun _ => rfl⟩

/-- Witness for the amended C9 (exact-debit case): deleting a resident
10-byte block takes `usedBytes` from 10 back to 0. -/
theorem C9_amended_delete_permanent_witness :
    ((runTrace (NewBlockCacheStandard 1 1000)
        [.putOp ⟨1, 0⟩ 0 (.dirBlock 10) .permanentEntry true]).DeletePermanent 1).1 =
      none ∧
    lookupKey ((runTrace (NewBlockCacheStandard 1 1000)
        [.putOp ⟨1, 0⟩ 0 (.dirBlock 10) .permanentEntry true]).DeletePermanent
        1).2.cleanPermanent 1 = none ∧
    ((runTrace (NewBlockCacheStandard 1 1000)
        [.putOp ⟨1, 0⟩ 0 (.dirBlock 10) .permanentEntry true]).DeletePermanent
        1).2.cleanTotalBytes + getCachedBlockSize (Block.dirBlock 10) =
      (runTrace (NewBlockCacheStandard 1 1000)
        [.putOp ⟨1, 0⟩ 0 (.dirBlock 10) .permanentEntry true]).cleanTotalBytes := by
  obtain ⟨h1, h2, h3, h4⟩ := C9_amended_delete_permanent
    (runTrace (NewBlockCacheStandard 1 1000)
      [.putOp ⟨1, 0⟩ 0 (.dirBlock 10) .permanentEntry true]) 1 (Block.dirBlock 10)
    (by decide)
  exact ⟨h1, h2, h3 (by decide)⟩

/-- Operations that are puts with Permanent lifetime. -/
def isPermPut : CacheOp → Bool
  | .putOp _ _ _ .permanentEntry _ => true
  | _ => false

/-- C10 (counterexample): in permanent-only mode a put with Permanent
lifetime does not always succeed — putting the abstract common block
returns the `attempted to Put a common block` error. -/
theorem C10_counterexample :
    ((NewBlockCacheStandard 0 100).PutWithPrefetch ⟨1, 0⟩ 0 (Block.commonBlock 5)
        .permanentEntry true).1 = some CacheError.attemptedCommonBlock := by
  decide

/-- C10 (amended): in a cache constructed with `transientEntryCap ≤ 0`,
`usedBytes` stays `0` under every sequence of Permanent-lifetime puts;
moreover in any state without a transient store a Permanent put of a
cacheable (file or directory) block succeeds, and every Permanent put —
of any block — leaves `usedBytes` unchanged and the transient store absent:
`makeRoomForSize` returns `false` without charging. -/
theorem C10_amended_permanent_only (tcap : Int) (bcap : Nat) (ops : List CacheOp)
    (htcap : tcap ≤ 0) (hops : ∀ op ∈ ops, isPermPut op = true) :
    (runTrace (NewBlockCacheStandard tcap bcap) ops).cleanTotalBytes = 0 ∧
    (∀ (b : BlockCacheStandard) (ptr : BlockPointer) (tlf : Nat) (block : Block)
        (hp : Bool), b.cleanTransient = none →
      (cacheableBlock block = true →
        (b.PutWithPrefetch ptr tlf block .permanentEntry hp).1 = none) ∧
      (b.PutWithPrefetch ptr tlf block .permanentEntry hp).2.cleanTotalBytes =
        b.cleanTotalBytes ∧
      (b.PutWithPrefetch ptr tlf block .permanentEntry hp).2.cleanTransient = none) := by
  have hstep : ∀ (b : BlockCacheStandard) (ptr : BlockPointer) (tlf : Nat)
      (block : Block) (hp : Bool), b.cleanTransient = none →
      (cacheableBlock block = true →
        (b.PutWithPrefetch ptr tlf block .permanentEntry hp).1 = none) ∧
      (b.PutWithPrefetch ptr tlf block .permanentEntry hp).2.cleanTotalBytes =
        b.cleanTotalBytes ∧
      (b.PutWithPrefetch ptr tlf block .permanentEntry hp).2.cleanTransient = none := by
    intro b ptr tlf block hp hct
    have hperm : ∀ blk : Block, (b.putPermanent ptr.id blk).1 = none ∧
        (b.putPermanent ptr.id blk).2.cleanTotalBytes = b.cleanTotalBytes ∧
        (b.putPermanent ptr.id blk).2.cleanTransient = none := by
      intro blk
      unfold BlockCacheStandard.putPermanent
      dsimp only
      split
      · exact ⟨rfl, rfl, hct⟩
      · rw [makeRoomForSize_none { b with cleanPermanent := eraseKey b.cleanPermanent ptr.id ++ [(ptr.id, blk)] } (getCachedBlockSize blk) .permanentEntry hct]
        exact ⟨rfl, rfl, hct⟩
    cases block with
    | commonBlock es =>
        refine ⟨?_, rfl, hct⟩
        intro hv
        simp [cacheableBlock] at hv
    | otherBlock es =>
        refine ⟨?_, rfl, hct⟩
        intro hv
        simp [cacheableBlock] at hv
    | dirBlock es =>
        obtain ⟨h1, h2, h3⟩ := hperm (Block.dirBlock es)
        exact ⟨fun _ => h1, h2, h3⟩
    | fileBlock isInd contents es =>
        obtain ⟨h1, h2, h3⟩ := hperm (Block.fileBlock isInd contents es)
        exact ⟨fun _ => h1, h2, h3⟩
  refine ⟨?_, hstep⟩
  have hrun : ∀ (ops2 : List CacheOp) (b : BlockCacheStandard),
      (∀ op ∈ ops2, isPermPut op = true) → b.cleanTransient = none →
      (runTrace b ops2).cleanTotalBytes = b.cleanTotalBytes ∧
      (runTrace b ops2).cleanTransient = none := by
    intro ops2
    induction ops2 with
    | nil => exact fun b _ hct => ⟨rfl, hct⟩
    | cons op rest ih =>
        intro b hall hct
        have hop : isPermPut op = true := hall op (List.mem_cons_self op rest)
        cases op with
        | putOp ptr tlf block lifetime hp =>
            cases lifetime with
            | noCacheEntry => simp [isPermPut] at hop
            | transientEntry => simp [isPermPut] at hop
            | permanentEntry =>
                obtain ⟨_, h2, h3⟩ := hstep b ptr tlf block hp hct
                have hrest := ih ((b.PutWithPrefetch ptr tlf block .permanentEntry hp).2)
                  (fun op2 hm => hall op2 (List.mem_cons_of_mem _ hm)) h3
                exact ⟨hrest.1.trans h2, hrest.2⟩
        | getOp ptr => simp [isPermPut] at hop
        | checkOp tlf isInd contents => simp [isPermPut] at hop
        | deleteTransientOp ptr tlf => simp [isPermPut] at hop
        | deletePermanentOp id => simp [isPermPut] at hop
        | deleteKnownPtrOp tlf isInd contents => simp [isPermPut] at hop
        | setCapacityOp c => simp [isPermPut] at hop
  have hnew : (NewBlockCacheStandard tcap bcap).cleanTransient = none ∧
      (NewBlockCacheStandard tcap bcap).cleanTotalBytes = 0 := by
    unfold NewBlockCacheStandard
    rw [if_neg (by omega : ¬(0 < tcap))]
    exact ⟨rfl, rfl⟩
  obtain ⟨h1, h2⟩ := hrun ops (NewBlockCacheStandard tcap bcap) hops hnew.1
  rw [h1, hnew.2]

/-- Witness for the amended C10: two permanent puts in a permanent-only
cache leave `usedBytes` at `0`. -/
theorem C10_amended_permanent_only_witness :
    (runTrace (NewBlockCacheStandard 0 100)
      [.putOp ⟨1, 0⟩ 0 (.dirBlock 5) .permanentEntry true,
       .putOp ⟨2, 0⟩ 0 (.fileBlock false [1, 2] 9) .permanentEntry true]).cleanTotalBytes =
      0 :=
  (C10_amended_permanent_only 0 100
    [.putOp ⟨1, 0⟩ 0 (.dirBlock 5) .permanentEntry true,
     .putOp ⟨2, 0⟩ 0 (.fileBlock false [1, 2] 9) .permanentEntry true]
    (by decide) (by decide)).1
